import Mathlib

/-!
# Huffman tree construction, encoder and decoder of `huffman.go`

A shallow embedding of `src/huffman.go`.

* A Go pointer `*HNode` is a value of the inductive type `HNode`; the nil
  pointer is the constructor `HNode.nil`.  The tree is never mutated after a
  node is allocated, so pointers are modelled by the values they point to.
* A byte is a natural number below 256; a rune is a natural number and the
  conversion `byte(l)` is `l % 256`.
* Go `int` indices are `Int` (the index `j` of `partition` can reach `-1`).
  Frequencies are `Nat`: they are sums of occurrence counts of the corpus and
  stay below `2^63` for every corpus a 64-bit machine can scan.
* A function that can panic (nil dereference, index out of range) returns
  `Option`, with `none` for the panic.  The loops of `partition`, `sort` and
  `generateHuffmanTree` recurse on a step budget computed from the length of
  the node list; exhausting the budget also yields `none`, and the totality
  lemmas below show that neither happens on the calls the program makes.
* `bufio.Scanner` and the UTF-8 decoding of `range line` belong to the Go
  library: the input of `New` in the model is the list of lines the scanner
  yields, each line the list of runes that `range` yields.  The function `scan`
  models what the library makes of a corpus of bytes (lines, the 64 KiB limit
  of the scanner buffer, UTF-8 decoding), for the statements about the corpus
  itself.
* `for v, f := range hash` enumerates the map in an unspecified order: the
  enumeration is the parameter `order`, a permutation of the map entries.
* The `fmt.Println` diagnostics and the file written by `Encode` are left out.
-/

namespace Huffman

/-! ## Data model -/

/-- A value of Go type `*HNode`: `nil`, or a pointer to a node holding
`value`, `frequency`, `left` and `right`. -/
inductive HNode where
  | nil : HNode
  | mk (value : Nat) (frequency : Nat) (left right : HNode) : HNode
  deriving DecidableEq

namespace HNode

/-- Field access `hn.value`; `none` is the nil-pointer panic. -/
def value : HNode → Option Nat
  | nil => none
  | mk v _ _ _ => some v

/-- Field access `hn.frequency`; `none` is the nil-pointer panic. -/
def frequency : HNode → Option Nat
  | nil => none
  | mk _ f _ _ => some f

/-- Field access `hn.left`; `none` is the nil-pointer panic. -/
def left : HNode → Option HNode
  | nil => none
  | mk _ _ l _ => some l

/-- Field access `hn.right`; `none` is the nil-pointer panic. -/
def right : HNode → Option HNode
  | nil => none
  | mk _ _ _ r => some r

end HNode

/-- The struct `HTree`: `reader` is what the scanner has still to yield (lines
of runes), `root` the head node. -/
structure HTree where
  reader : List (List Nat)
  root : HNode
  deriving DecidableEq

/-! ## Quicksort on the node slice (`sort`, `partition`) -/

/-- Slice indexing `nodes[i]` with a Go `int` index; `none` is the
index-out-of-range panic. -/
def index (nodes : List HNode) (i : Int) : Option HNode :=
  if 0 ≤ i then nodes[i.toNat]? else none

/-- The expression `nodes[i].frequency`. -/
def freqAt (nodes : List HNode) (i : Int) : Option Nat :=
  (index nodes i).bind HNode.frequency

/-- The inner loop `for nodes[i].frequency < pivot { i++ }`; returns the final `i`. -/
def scanUp (nodes : List HNode) (pivot : Nat) : Nat → Int → Option Int
  | 0, _ => none
  | fuel + 1, i =>
    match freqAt nodes i with
    | none => none
    | some f => if f < pivot then scanUp nodes pivot fuel (i + 1) else some i

/-- The inner loop `for nodes[j].frequency > pivot { j-- }`; returns the final `j`. -/
def scanDown (nodes : List HNode) (pivot : Nat) : Nat → Int → Option Int
  | 0, _ => none
  | fuel + 1, j =>
    match freqAt nodes j with
    | none => none
    | some f => if f > pivot then scanDown nodes pivot fuel (j - 1) else some j

/-- The assignment `nodes[i], nodes[j] = nodes[j], nodes[i]`. -/
def swap (nodes : List HNode) (i j : Int) : Option (List HNode) :=
  match index nodes j, index nodes i with
  | some b, some a => some ((nodes.set i.toNat b).set j.toNat a)
  | _, _ => none

/-- The outer loop `for i <= j { ... }` of `partition`; returns the slice and
the final `i`. -/
def partitionLoop (pivot : Nat) : Nat → List HNode → Int → Int → Option (List HNode × Int)
  | 0, _, _, _ => none
  | fuel + 1, nodes, i, j =>
    if i ≤ j then
      match scanUp nodes pivot (nodes.length + 1) i with
      | none => none
      | some i1 =>
        match scanDown nodes pivot (nodes.length + 1) j with
        | none => none
        | some j1 =>
          if i1 ≤ j1 then
            match swap nodes i1 j1 with
            | none => none
            | some nodes1 => partitionLoop pivot fuel nodes1 (i1 + 1) (j1 - 1)
          else partitionLoop pivot fuel nodes i1 j1
    else some (nodes, i)

/-- The method `partition(nodes, start, end)`: the slice after the call and the
returned index. -/
def partition (nodes : List HNode) (start stop : Int) : Option (List HNode × Int) :=
  match freqAt nodes ((start + stop).tdiv 2) with
  | none => none
  | some pivot => partitionLoop pivot (nodes.length + 2) nodes start stop

/-- The method `sort(nodes, start, end)` with a bound on the recursion depth. -/
def sortAux : Nat → List HNode → Int → Int → Option (List HNode)
  | 0, _, _, _ => none
  | fuel + 1, nodes, start, stop =>
    if start < stop then
      match partition nodes start stop with
      | none => none
      | some (nodes1, p) =>
        match sortAux fuel nodes1 0 (p - 1) with
        | none => none
        | some nodes2 => sortAux fuel nodes2 p stop
    else some nodes

/-- Recursion depth that `sort` is given, from the length of the slice. -/
def sortFuel (nodes : List HNode) : Nat :=
  (nodes.length + 2) * (nodes.length + 2)

/-- The method `sort(nodes, start, end)`. -/
def sort (nodes : List HNode) (start stop : Int) : Option (List HNode) :=
  sortAux (sortFuel nodes) nodes start stop

/-! ## Building the tree (`generateHuffmanTree`, `New`) -/

/-- The statement `hash[k] += 1` on the map `hash`, kept as a list of
(key, count) entries with distinct keys. -/
def incr : List (Nat × Nat) → Nat → List (Nat × Nat)
  | [], k => [(k, 1)]
  | (k1, c) :: rest, k => if k1 = k then (k1, c + 1) :: rest else (k1, c) :: incr rest k

/-- The loop `for _, l := range line { hash[byte(l)] += 1 }`. -/
def countLine (hash : List (Nat × Nat)) (line : List Nat) : List (Nat × Nat) :=
  line.foldl (fun acc l => incr acc (l % 256)) hash

/-- The loop `for h.reader.Scan() { ... }`: the map `hash` after the whole
corpus has been scanned. -/
def countLines (lines : List (List Nat)) : List (Nat × Nat) :=
  lines.foldl countLine []

/-- The loop `for v, f := range hash { nodes = append(nodes, &HNode{v, f, nil, nil}) }`,
for the enumeration `order` of the map. -/
def leafNodes (order : List (Nat × Nat)) : List HNode :=
  order.map (fun e => HNode.mk e.1 e.2 HNode.nil HNode.nil)

/-- The loop `for len(nodes) > 1 { ... }` of `generateHuffmanTree`, which
replaces `nodes[0]` and `nodes[1]` by a new node with value `'*'` (42) and
sorts again; the first argument bounds the number of iterations. -/
def mergeLoop : Nat → List HNode → Option (List HNode)
  | 0, _ => none
  | fuel + 1, nodes =>
    if nodes.length > 1 then
      match index nodes 0, index nodes 1 with
      | some n0, some n1 =>
        match n0.frequency, n1.frequency with
        | some f0, some f1 =>
          let newNode := HNode.mk 42 (f0 + f1) n0 n1
          let nodes1 := (nodes.set 1 newNode).drop 1
          match sort nodes1 0 ((nodes1.length : Int) - 1) with
          | none => none
          | some nodes2 => mergeLoop fuel nodes2
        | _, _ => none
      | _, _ => none
    else some nodes

/-- The method `generateHuffmanTree`: the receiver after the call and the
returned error (`none` is the nil error).  `order` is the order in which
`range hash` enumerates the map. -/
def HTree.generateHuffmanTree (h : HTree) (order : List (Nat × Nat)) :
    Option (HTree × Option String) :=
  let hash := countLines h.reader
  if hash.length < 1 then
    some ({ reader := [], root := h.root }, some "huffman: no huffman nodes generated")
  else
    let nodes := leafNodes order
    match sort nodes 0 ((nodes.length : Int) - 1) with
    | none => none
    | some nodes1 =>
      match mergeLoop (nodes1.length + 1) nodes1 with
      | none => none
      | some nodes2 =>
        match index nodes2 0 with
        | none => none
        | some root => some ({ reader := [], root := root }, none)

/-- The function `New`: the inner `none` is the returned nil pointer. -/
def New (reader : List (List Nat)) (order : List (Nat × Nat)) : Option (Option HTree) :=
  match HTree.generateHuffmanTree { reader := reader, root := HNode.nil } order with
  | none => none
  | some (_, some _) => some none
  | some (ht, none) => some (some ht)

/-! ## Encoder (`encode`, `Encode`) -/

/-- The method `encode(marker, data)`.  The results of the two recursive calls
are dropped by the source, so they are bound and not used; what a callee
appends lies beyond the length of the caller's slice and is either overwritten
by the caller's own `append` or outside the slice it returns. -/
def HNode.encode : HNode → Nat → List Nat → List Nat
  | HNode.nil, _, data => data
  | HNode.mk value _ left right, marker, data =>
    if value = marker then data
    else
      let data1 :=
        if left ≠ HNode.nil then
          let d := data ++ [48]
          let _ := HNode.encode left marker d
          d
        else data
      let data2 :=
        if right ≠ HNode.nil then
          let d := data1 ++ [49]
          let _ := HNode.encode right marker d
          d
        else data1
      data2

/-- The loops of `Encode` over the scanned lines: the contents of `buffer`. -/
def encodeLines (root : HNode) (lines : List (List Nat)) : List Nat :=
  (lines.map (fun line => (line.map (fun l => HNode.encode root (l % 256) [])).flatten)).flatten

/-- The method `Encode`, with the text it encodes as a parameter (the source
fixes it to `text`, below): the error message, or the bytes written. -/
def HTree.EncodeText (h : HTree) (lines : List (List Nat)) : Except String (List Nat) :=
  if h.root = HNode.nil then Except.error "huffman: can't encode, no huffman tree found."
  else Except.ok (encodeLines h.root lines)

/-- The string literal of `Encode`, as the one line the scanner yields. -/
def text : List (List Nat) :=
  ["Eerie eyes seen near lake.".toList.map Char.toNat]

/-- The method `Encode`. -/
def HTree.Encode (h : HTree) : Except String (List Nat) :=
  HTree.EncodeText h text

/-! ## Decoder (`Decode`) -/

/-- One iteration of the loop of `Decode` on the rune `e`, from the state
`(decoded, node)`; `none` is the nil-pointer panic of `node.left`. -/
def decodeStep (root : HNode) (decoded : List Nat) (node : HNode) (e : Nat) :
    Option (List Nat × HNode) :=
  match node with
  | HNode.nil => none
  | HNode.mk v _ l r =>
    let st : List Nat × HNode :=
      if l = HNode.nil ∧ r = HNode.nil then (decoded ++ [v], root) else (decoded, node)
    match (if e % 256 = 48 then st.2.left else some st.2) with
    | none => none
    | some node1 =>
      match (if e % 256 = 49 then node1.right else some node1) with
      | none => none
      | some node2 => some (st.1, node2)

/-- The loop `for _, e := range encoded { ... }` of `Decode`. -/
def decodeLoop (root : HNode) : List Nat → HNode → List Nat → Option (List Nat × HNode)
  | decoded, node, [] => some (decoded, node)
  | decoded, node, e :: rest =>
    match decodeStep root decoded node e with
    | none => none
    | some (decoded1, node1) => decodeLoop root decoded1 node1 rest

/-- The method `Decode`, on the runes of `encoded`: `none` is a panic, the nil
slice is the empty list. -/
def HTree.Decode (h : HTree) (encoded : List Nat) : Option (List Nat) :=
  if h.root = HNode.nil then some []
  else (decodeLoop h.root [] h.root encoded).map Prod.fst

/-! ## Predicates used in the statements -/

/-- No nil pointer among the elements of the slice. -/
def NoNil (nodes : List HNode) : Prop := ∀ x ∈ nodes, x ≠ HNode.nil

/-- Every node of the tree is a leaf without children or has two children, and
the tree is not the nil pointer. -/
def HNode.full : HNode → Bool
  | HNode.nil => false
  | HNode.mk _ _ l r => (l == HNode.nil && r == HNode.nil) || (HNode.full l && HNode.full r)

/-- The runes of the corpus, line after line. -/
def runes (lines : List (List Nat)) : List Nat := lines.flatten

/-- The test `node.left == nil && node.right == nil` of `Decode`, on a non-nil node. -/
def HNode.isLeaf : HNode → Bool
  | HNode.mk _ _ HNode.nil HNode.nil => true
  | _ => false

/-- The node reached from `t` along the characters `p`, `'0'` (48) to the left
and `'1'` (49) to the right; `nil` when the path leaves the tree. -/
def descend : HNode → List Nat → HNode
  | t, [] => t
  | HNode.nil, _ :: _ => HNode.nil
  | HNode.mk _ _ l r, b :: p =>
    if b = 48 then descend l p else if b = 49 then descend r p else HNode.nil

/-- The characters `p` are the path from the root `t` to a leaf holding the symbol `s`. -/
def IsCode (t : HNode) (p : List Nat) (s : Nat) : Prop :=
  ∃ f, descend t p = HNode.mk s f HNode.nil HNode.nil

/-- The frequency read by `nodes[k].frequency`, and 0 where that read panics. -/
def fq (nodes : List HNode) (k : Int) : Nat := (freqAt nodes k).getD 0

/-- The reads `nodes[k].frequency` succeed for every `k` from `lo` to `hi`. -/
def Win (nodes : List HNode) (lo hi : Int) : Prop :=
  ∀ k, lo ≤ k → k ≤ hi → ∃ f, freqAt nodes k = some f

/-- The slice `nodes1` differs from `nodes` only by a rearrangement of the
entries at the indices from `lo` to `hi`. -/
def Frame (lo hi : Int) (nodes nodes1 : List HNode) : Prop :=
  nodes1.length = nodes.length ∧
    (∀ k, (k < lo ∨ hi < k) → index nodes1 k = index nodes k) ∧
    (∀ k, lo ≤ k → k ≤ hi → ∃ k1, lo ≤ k1 ∧ k1 ≤ hi ∧ index nodes1 k = index nodes k1)

/-- The frequency of a node, and 0 for the nil pointer. -/
def HNode.freq (t : HNode) : Nat := t.frequency.getD 0

/-- The slice is in non-decreasing order of frequency. -/
def SortedByFreq (nodes : List HNode) : Prop :=
  List.Pairwise (fun a b => HNode.freq a ≤ HNode.freq b) nodes

/-- The body of the loop `for len(nodes) > 1 { ... }` of `generateHuffmanTree`:
the slice after one merge and the sort that follows it. -/
def mergeStep (nodes : List HNode) : Option (List HNode) :=
  match index nodes 0, index nodes 1 with
  | some n0, some n1 =>
    match n0.frequency, n1.frequency with
    | some f0, some f1 =>
      let newNode := HNode.mk 42 (f0 + f1) n0 n1
      let nodes1 := (nodes.set 1 newNode).drop 1
      sort nodes1 0 ((nodes1.length : Int) - 1)
    | _, _ => none
  | _, _ => none

/-- The working sets at the head of the merge loop that starts from `init`:
`init` itself, and what an iteration makes of a working set with more than one
node. -/
inductive Reach (init : List HNode) : List HNode → Prop where
  | start : Reach init init
  | step {nodes nodes1 : List HNode} : Reach init nodes → nodes.length > 1 →
      mergeStep nodes = some nodes1 → Reach init nodes1

/-- The leaves of a tree from left to right, each as (value, frequency). -/
def leaves : HNode → List (Nat × Nat)
  | HNode.nil => []
  | HNode.mk v f HNode.nil HNode.nil => [(v, f)]
  | HNode.mk _ _ l r => leaves l ++ leaves r

/-- The leaves of all the trees of a working set. -/
def forestLeaves (nodes : List HNode) : List (Nat × Nat) :=
  (nodes.map leaves).flatten

/-- Every node of the tree is a leaf with no children, or an internal node with
two non-nil children whose frequency is the sum of the frequencies of its
children; the tree is not the nil pointer. -/
def HNode.wellFormed : HNode → Bool
  | HNode.nil => false
  | HNode.mk _ f l r =>
    (l == HNode.nil && r == HNode.nil) ||
      (HNode.wellFormed l && HNode.wellFormed r && f == HNode.freq l + HNode.freq r)

/-- The bytes of the corpus that `generateHuffmanTree` counts: `byte(l)` for
every rune `l` of every line. -/
def corpusBytes (lines : List (List Nat)) : List Nat :=
  (runes lines).map (fun l => l % 256)

/-- The leaves of a tree from left to right, each as (frequency, depth), the
root of the tree standing at depth `d`. -/
def leafDepths : HNode → Nat → List (Nat × Nat)
  | HNode.nil, _ => []
  | HNode.mk _ f HNode.nil HNode.nil, d => [(f, d)]
  | HNode.mk _ _ l r, d => leafDepths l (d + 1) ++ leafDepths r (d + 1)

/-- The weighted path length of a tree: the sum over its leaves of frequency
times depth. -/
def wpl (t : HNode) : Nat :=
  ((leafDepths t 0).map (fun p => p.1 * p.2)).sum

/-- The cost of an assignment of depths to weights, given as (weight, depth)
pairs: the sum of weight times depth. -/
def codeCost (s : Multiset (Nat × Nat)) : Nat :=
  (s.map (fun p => p.1 * p.2)).sum

/-- The Kraft sum of the depths of `s`, scaled by `2 ^ N`. -/
def kraftSum (N : Nat) (s : Multiset (Nat × Nat)) : Nat :=
  (s.map (fun p => 2 ^ (N - p.2))).sum

/-- The depths of `s` are at most `N` and their Kraft sum is exactly 1, as for
the leaves of a binary tree in which every internal node has two children. -/
def Feasible (N : Nat) (s : Multiset (Nat × Nat)) : Prop :=
  (∀ p ∈ s, p.2 ≤ N) ∧ kraftSum N s = 2 ^ N

/-! ## The corpus as the scanner hands it over

A model of the Go library calls `generateHuffmanTree` makes on its reader:
`bufio.Scanner` with its default split function `ScanLines` and its default
buffer limit `MaxScanTokenSize` (64 * 1024 bytes), `Scanner.Text`, and the
UTF-8 decoding of `for _, l := range line`.  The reader delivers the bytes of
the corpus without a read error and reports the end of the input by a read of
its own, as the `os.File` that `main` passes does. -/

/-- The function `dropCR` of `bufio`: the line without one trailing `'\r'` (13). -/
def dropCR (data : List Nat) : List Nat :=
  if data.getLast? = some 13 then data.dropLast else data

/-- The tokens `Scan` yields for the bytes that remain, `cur` being the bytes
of the current line read so far.  A line ends at `'\n'` (10) or at the end of
the input; a last line without bytes is not a token.  A line of 65536 bytes or
more before its end does not fit the buffer: `Scan` then returns false
(`ErrTooLong`, which `generateHuffmanTree` does not look at) and the loop over
the lines stops. -/
def scanLinesAux (cur : List Nat) : List Nat → List (List Nat)
  | [] =>
    if cur = [] then []
    else if 65536 ≤ cur.length then []
    else [dropCR cur]
  | b :: rest =>
    if b = 10 then
      if 65536 ≤ cur.length then []
      else dropCR cur :: scanLinesAux [] rest
    else scanLinesAux (cur ++ [b]) rest

/-- The lines `h.reader.Scan()` and `h.reader.Text()` yield for a corpus of bytes. -/
def scanLines (corpus : List Nat) : List (List Nat) :=
  scanLinesAux [] corpus

/-- The first rune of a non-empty string and the number of bytes it takes, as
`range` decodes it (`utf8.DecodeRuneInString`): an ASCII byte is its own rune;
a well-formed encoding of two, three or four bytes gives its code point; any
other first byte, a missing byte or a byte outside the accepted range gives
U+FFFD (65533) and takes one byte. -/
def decodeRune : List Nat → Nat × Nat
  | [] => (65533, 0)
  | b0 :: rest =>
    if b0 < 128 then (b0, 1)
    else if b0 < 194 then (65533, 1)
    else if b0 < 224 then
      match rest with
      | b1 :: _ =>
        if 128 ≤ b1 ∧ b1 ≤ 191 then ((b0 % 32) * 64 + b1 % 64, 2) else (65533, 1)
      | _ => (65533, 1)
    else if b0 < 240 then
      match rest with
      | b1 :: b2 :: _ =>
        if (if b0 = 224 then 160 else 128) ≤ b1 ∧ b1 ≤ (if b0 = 237 then 159 else 191) then
          if 128 ≤ b2 ∧ b2 ≤ 191 then
            ((b0 % 16) * 4096 + (b1 % 64) * 64 + b2 % 64, 3)
          else (65533, 1)
        else (65533, 1)
      | _ => (65533, 1)
    else if b0 < 245 then
      match rest with
      | b1 :: b2 :: b3 :: _ =>
        if (if b0 = 240 then 144 else 128) ≤ b1 ∧ b1 ≤ (if b0 = 244 then 143 else 191) then
          if 128 ≤ b2 ∧ b2 ≤ 191 then
            if 128 ≤ b3 ∧ b3 ≤ 191 then
              ((b0 % 8) * 262144 + (b1 % 64) * 4096 + (b2 % 64) * 64 + b3 % 64, 4)
            else (65533, 1)
          else (65533, 1)
        else (65533, 1)
      | _ => (65533, 1)
    else (65533, 1)

/-- The runes `for _, l := range line` yields for the bytes of `line`; `skip`
is the number of bytes still to pass over as part of the rune decoded last. -/
def decodeRunes : Nat → List Nat → List Nat
  | _, [] => []
  | 0, b :: rest => (decodeRune (b :: rest)).1 :: decodeRunes ((decodeRune (b :: rest)).2 - 1) rest
  | skip + 1, _ :: rest => decodeRunes skip rest

/-- What the scanning loop of `generateHuffmanTree` sees of a corpus of bytes:
the lines `Scan` yields, each as the runes `range` yields. -/
def scan (corpus : List Nat) : List (List Nat) :=
  (scanLines corpus).map (decodeRunes 0)

/-! ## The quicksort returns: bounds, termination, permutation -/

theorem perm_cons_set {α : Type} (xs : List α) (j : Nat) (a b : α) (h : xs[j]? = some b) :
    (b :: xs.set j a).Perm (a :: xs) := by
  induction xs generalizing j with
  | nil => simp at h
  | cons y t ih =>
    cases j with
    | zero =>
      simp at h; subst h; simp only [List.set]; exact List.Perm.swap _ _ _
    | succ j =>
      simp at h
      simp only [List.set]
      exact (List.Perm.swap y b _).trans (((ih j h).cons y).trans (List.Perm.swap a y t))

theorem set_set_perm {α : Type} (l : List α) (i j : Nat) (a b : α)
    (hi : l[i]? = some a) (hj : l[j]? = some b) : ((l.set i b).set j a).Perm l := by
  induction l generalizing i j with
  | nil => simp at hi
  | cons x xs ih =>
    cases i with
    | zero =>
      simp at hi; subst hi
      cases j with
      | zero => simp at hj; subst hj; simp [List.set]
      | succ j => simp at hj; simp only [List.set]; exact perm_cons_set xs j x b hj
    | succ i =>
      simp at hi
      cases j with
      | zero => simp at hj; subst hj; simp only [List.set]; exact perm_cons_set xs i x a hi
      | succ j => simp at hj; simp only [List.set]; exact (ih i j hi hj).cons x

theorem index_of_nonneg (nodes : List HNode) (i : Int) (h0 : 0 ≤ i) :
    index nodes i = nodes[i.toNat]? := by
  simp [index, h0]

theorem index_some (nodes : List HNode) (i : Int) (h0 : 0 ≤ i) (h1 : i < nodes.length) :
    ∃ x, index nodes i = some x ∧ x ∈ nodes := by
  have hlt : i.toNat < nodes.length := by omega
  refine ⟨nodes[i.toNat], ?_, List.getElem_mem hlt⟩
  rw [index_of_nonneg nodes i h0, List.getElem?_eq_getElem hlt]

theorem freqAt_some (nodes : List HNode) (hnn : NoNil nodes) (i : Int) (h0 : 0 ≤ i)
    (h1 : i < nodes.length) : ∃ f, freqAt nodes i = some f := by
  obtain ⟨x, hx, hmem⟩ := index_some nodes i h0 h1
  have hne := hnn x hmem
  cases x with
  | nil => exact absurd rfl hne
  | mk v f l r => exact ⟨f, by simp [freqAt, hx, HNode.frequency]⟩

theorem scanUp_spec (nodes : List HNode) (pivot : Nat) (hnn : NoNil nodes) :
    ∀ (fuel : Nat) (i k : Int) (fk : Nat), 0 ≤ i → i ≤ k → k < nodes.length →
      freqAt nodes k = some fk → pivot ≤ fk → (k - i).toNat + 1 ≤ fuel →
      ∃ i1 f1, scanUp nodes pivot fuel i = some i1 ∧ i ≤ i1 ∧ i1 ≤ k ∧
        freqAt nodes i1 = some f1 ∧ pivot ≤ f1 ∧
        ∀ m, i ≤ m → m < i1 → ∃ fm, freqAt nodes m = some fm ∧ fm < pivot := by
  intro fuel
  induction fuel with
  | zero => intro i k fk _ _ _ _ _ hf; omega
  | succ fuel ih =>
    intro i k fk h0 hik hk hfk hp hf
    obtain ⟨f, hfi⟩ := freqAt_some nodes hnn i h0 (by omega)
    by_cases hlt : f < pivot
    · have hne : i ≠ k := by
        intro h; subst h; rw [hfi] at hfk; cases hfk; omega
      obtain ⟨i1, f1, hs, h1, h2, h3, h4, h5⟩ :=
        ih (i + 1) k fk (by omega) (by omega) hk hfk hp (by omega)
      refine ⟨i1, f1, ?_, by omega, h2, h3, h4, ?_⟩
      · simp [scanUp, hfi, hlt, hs]
      · intro m hm1 hm2
        by_cases hmi : m = i
        · subst hmi; exact ⟨f, hfi, hlt⟩
        · exact h5 m (by omega) hm2
    · refine ⟨i, f, ?_, le_refl _, hik, hfi, by omega, ?_⟩
      · simp [scanUp, hfi, hlt]
      · intro m hm1 hm2; omega

theorem scanDown_spec (nodes : List HNode) (pivot : Nat) (hnn : NoNil nodes) :
    ∀ (fuel : Nat) (j k : Int) (fk : Nat), 0 ≤ k → k ≤ j → j < nodes.length →
      freqAt nodes k = some fk → fk ≤ pivot → (j - k).toNat + 1 ≤ fuel →
      ∃ j1 f1, scanDown nodes pivot fuel j = some j1 ∧ k ≤ j1 ∧ j1 ≤ j ∧
        freqAt nodes j1 = some f1 ∧ f1 ≤ pivot ∧
        ∀ m, j1 < m → m ≤ j → ∃ fm, freqAt nodes m = some fm ∧ pivot < fm := by
  intro fuel
  induction fuel with
  | zero => intro j k fk _ _ _ _ _ hf; omega
  | succ fuel ih =>
    intro j k fk h0 hkj hj hfk hp hf
    obtain ⟨f, hfj⟩ := freqAt_some nodes hnn j (by omega) hj
    by_cases hgt : f > pivot
    · have hne : j ≠ k := by
        intro h; subst h; rw [hfj] at hfk; cases hfk; omega
      obtain ⟨j1, f1, hs, h1, h2, h3, h4, h5⟩ :=
        ih (j - 1) k fk h0 (by omega) (by omega) hfk hp (by omega)
      refine ⟨j1, f1, ?_, h1, by omega, h3, h4, ?_⟩
      · simp [scanDown, hfj, hgt, hs]
      · intro m hm1 hm2
        by_cases hmj : m = j
        · subst hmj; exact ⟨f, hfj, hgt⟩
        · exact h5 m hm1 (by omega)
    · refine ⟨j, f, ?_, hkj, le_refl _, hfj, by omega, ?_⟩
      · simp [scanDown, hfj, hgt]
      · intro m hm1 hm2; omega

theorem swap_spec (nodes : List HNode) (i j : Int) (hi0 : 0 ≤ i) (hi : i < nodes.length)
    (hj0 : 0 ≤ j) (hj : j < nodes.length) :
    ∃ nodes1, swap nodes i j = some nodes1 ∧ nodes1.Perm nodes ∧
      index nodes1 i = index nodes j ∧ index nodes1 j = index nodes i ∧
      ∀ m, m ≠ i → m ≠ j → index nodes1 m = index nodes m := by
  obtain ⟨a, ha, _⟩ := index_some nodes i hi0 hi
  obtain ⟨b, hb, _⟩ := index_some nodes j hj0 hj
  have ha1 : nodes[i.toNat]? = some a := by rw [← index_of_nonneg _ _ hi0]; exact ha
  have hb1 : nodes[j.toNat]? = some b := by rw [← index_of_nonneg _ _ hj0]; exact hb
  have hil : i.toNat < nodes.length := by omega
  have hjl : j.toNat < nodes.length := by omega
  refine ⟨(nodes.set i.toNat b).set j.toNat a, by simp [swap, ha, hb],
    set_set_perm nodes _ _ a b ha1 hb1, ?_, ?_, ?_⟩
  · rw [index_of_nonneg _ _ hi0, hb, List.getElem?_set]
    by_cases hji : j.toNat = i.toNat
    · have : a = b := by rw [hji] at hb1; rw [ha1] at hb1; exact Option.some.inj hb1
      simp [hji, hil, this]
    · simp [hji, List.getElem?_set, hil]
  · rw [index_of_nonneg _ _ hj0, ha, List.getElem?_set]
    simp [hjl]
  · intro m hmi hmj
    by_cases hm : 0 ≤ m
    · rw [index_of_nonneg _ _ hm, index_of_nonneg _ _ hm, List.getElem?_set, List.getElem?_set]
      have h1 : j.toNat ≠ m.toNat := by omega
      have h2 : i.toNat ≠ m.toNat := by omega
      simp [h1, h2]
    · simp [index, hm]

theorem noNil_of_perm {nodes nodes1 : List HNode} (hp : nodes1.Perm nodes) (hnn : NoNil nodes) :
    NoNil nodes1 :=
  fun x hx => hnn x (hp.subset hx)

theorem partitionLoop_spec (pivot : Nat) (start stop : Int) :
    ∀ (fuel : Nat) (nodes : List HNode) (i j : Int), NoNil nodes → 0 ≤ start →
      stop < nodes.length → start ≤ i → i ≤ stop → j ≤ stop → (start < i ∨ i ≤ j) →
      (i ≤ j → ∃ ku kd fu fd, i ≤ ku ∧ ku ≤ stop ∧ (ku < stop ∨ j < stop) ∧
          freqAt nodes ku = some fu ∧ pivot ≤ fu ∧ start ≤ kd ∧ kd ≤ j ∧
          freqAt nodes kd = some fd ∧ fd ≤ pivot ∧ (start < i ∨ ku ≤ kd)) →
      (j + 1 - i).toNat + 1 ≤ fuel →
      ∃ nodes1 p, partitionLoop pivot fuel nodes i j = some (nodes1, p) ∧
        nodes1.Perm nodes ∧ start < p ∧ p ≤ stop := by
  intro fuel
  induction fuel with
  | zero => intro nodes i j _ _ _ _ _ _ _ _ hf; omega
  | succ fuel ih =>
    intro nodes i j hnn hs0 hstop hsi his hjs hdis hsent hf
    by_cases hij : i ≤ j
    · obtain ⟨ku, kd, fu, fd, h1, h2, h3, h4, h5, h6, h7, h8, h9, h10⟩ := hsent hij
      obtain ⟨i1, f1, hsu, hu1, hu2, hu3, hu4, _⟩ :=
        scanUp_spec nodes pivot hnn (nodes.length + 1) i ku fu (by omega) h1 (by omega) h4 h5
          (by omega)
      obtain ⟨j1, g1, hsd, hd1, hd2, hd3, hd4, _⟩ :=
        scanDown_spec nodes pivot hnn (nodes.length + 1) j kd fd (by omega) h7 (by omega) h8 h9
          (by omega)
      by_cases hsw : i1 ≤ j1
      · obtain ⟨nodes1, hswap, hperm, hx1, hx2, _⟩ :=
          swap_spec nodes i1 j1 (by omega) (by omega) (by omega) (by omega)
        have hlen : nodes1.length = nodes.length := hperm.length_eq
        have hf1 : freqAt nodes1 i1 = some g1 := by
          unfold freqAt at hd3 ⊢; rw [hx1]; exact hd3
        have hf2 : freqAt nodes1 j1 = some f1 := by
          unfold freqAt at hu3 ⊢; rw [hx2]; exact hu3
        obtain ⟨nodes2, p, hloop, hperm2, hp1, hp2⟩ :=
          ih nodes1 (i1 + 1) (j1 - 1) (noNil_of_perm hperm hnn) hs0 (by omega) (by omega)
            (by omega) (by omega) (Or.inl (by omega))
            (fun hle => ⟨j1, i1, f1, g1, by omega, by omega, Or.inr (by omega), hf2, hu4,
              by omega, by omega, hf1, hd4, Or.inl (by omega)⟩)
            (by omega)
        refine ⟨nodes2, p, ?_, hperm2.trans hperm, hp1, hp2⟩
        simp [partitionLoop, hij, hsu, hsd, hsw, hswap, hloop]
      · have hlt : start < i1 := by
          rcases h10 with h | h
          · omega
          · omega
        obtain ⟨nodes2, p, hloop, hperm2, hp1, hp2⟩ :=
          ih nodes i1 j1 hnn hs0 hstop (by omega) (by omega) (by omega) (Or.inl hlt)
            (fun hle => absurd hle hsw) (by omega)
        refine ⟨nodes2, p, ?_, hperm2, hp1, hp2⟩
        simp [partitionLoop, hij, hsu, hsd, hsw, hloop]
    · refine ⟨nodes, i, ?_, List.Perm.refl _, ?_, his⟩
      · simp [partitionLoop, hij]
      · rcases hdis with h | h
        · exact h
        · exact absurd h hij

theorem partition_spec (nodes : List HNode) (start stop : Int) (hnn : NoNil nodes)
    (hs0 : 0 ≤ start) (hlt : start < stop) (hstop : stop < nodes.length) :
    ∃ nodes1 p, partition nodes start stop = some (nodes1, p) ∧ nodes1.Perm nodes ∧
      start < p ∧ p ≤ stop := by
  have hdiv : (start + stop).tdiv 2 = (start + stop) / 2 :=
    Int.tdiv_eq_ediv (by omega) (by omega)
  obtain ⟨pivot, hpv⟩ := freqAt_some nodes hnn ((start + stop) / 2) (by omega) (by omega)
  obtain ⟨nodes1, p, hloop, hperm, hp1, hp2⟩ :=
    partitionLoop_spec pivot start stop (nodes.length + 2) nodes start stop hnn hs0 hstop
      (le_refl _) (by omega) (le_refl _) (Or.inr (by omega))
      (fun _ => ⟨(start + stop) / 2, (start + stop) / 2, pivot, pivot, by omega, by omega,
        Or.inl (by omega), hpv, le_refl _, by omega, by omega, hpv, le_refl _,
        Or.inr (le_refl _)⟩)
      (by omega)
  exact ⟨nodes1, p, by simp [partition, hdiv, hpv, hloop], hperm, hp1, hp2⟩
theorem sortAux_spec :
    ∀ (fuel : Nat) (nodes : List HNode) (start stop : Int), NoNil nodes → 0 ≤ start →
      stop < nodes.length →
      stop.toNat * (nodes.length + 1) + (stop - start).toNat + 1 ≤ fuel →
      ∃ nodes1, sortAux fuel nodes start stop = some nodes1 ∧ nodes1.Perm nodes := by
  intro fuel
  induction fuel with
  | zero => intro nodes start stop _ _ _ hf; omega
  | succ fuel ih =>
    intro nodes start stop hnn hs0 hstop hf
    by_cases hlt : start < stop
    · obtain ⟨nodes1, p, hpart, hperm1, hp1, hp2⟩ :=
        partition_spec nodes start stop hnn hs0 hlt hstop
      have hlen1 : nodes1.length = nodes.length := hperm1.length_eq
      have hmul : ((p - 1).toNat + 1) * (nodes.length + 1) ≤ stop.toNat * (nodes.length + 1) :=
        Nat.mul_le_mul_right _ (by omega)
      rw [Nat.succ_mul] at hmul
      obtain ⟨nodes2, hsort1, hperm2⟩ :=
        ih nodes1 0 (p - 1) (noNil_of_perm hperm1 hnn) (le_refl _) (by omega)
          (by rw [hlen1]; omega)
      have hlen2 : nodes2.length = nodes.length := hperm2.length_eq.trans hlen1
      obtain ⟨nodes3, hsort2, hperm3⟩ :=
        ih nodes2 p stop (noNil_of_perm (hperm2.trans hperm1) hnn) (by omega) (by omega)
          (by rw [hlen2]; omega)
      exact ⟨nodes3, by simp [sortAux, hlt, hpart, hsort1, hsort2],
        hperm3.trans (hperm2.trans hperm1)⟩
    · exact ⟨nodes, by simp [sortAux, hlt], List.Perm.refl _⟩

theorem sort_spec (nodes : List HNode) (start stop : Int) (hnn : NoNil nodes)
    (hs0 : 0 ≤ start) (hstop : stop < nodes.length) :
    ∃ nodes1, sort nodes start stop = some nodes1 ∧ nodes1.Perm nodes := by
  apply sortAux_spec (sortFuel nodes) nodes start stop hnn hs0 hstop
  have h1 : stop.toNat * (nodes.length + 1) ≤ nodes.length * (nodes.length + 1) :=
    Nat.mul_le_mul_right _ (by omega)
  have h2 : (stop - start).toNat ≤ nodes.length := by omega
  unfold sortFuel
  nlinarith

/-! ## The merge loop returns a single full tree -/

theorem full_ne_nil {t : HNode} (h : t.full = true) : t ≠ HNode.nil := by
  intro hn; subst hn; simp [HNode.full] at h

theorem noNil_of_full {nodes : List HNode} (h : ∀ x ∈ nodes, x.full = true) : NoNil nodes :=
  fun x hx => full_ne_nil (h x hx)

theorem frequency_of_full {t : HNode} (h : t.full = true) : ∃ f, t.frequency = some f := by
  cases t with
  | nil => simp [HNode.full] at h
  | mk v f l r => exact ⟨f, rfl⟩

theorem mergeLoop_spec :
    ∀ (fuel : Nat) (nodes : List HNode), (∀ x ∈ nodes, x.full = true) → 1 ≤ nodes.length →
      nodes.length ≤ fuel →
      ∃ root, mergeLoop fuel nodes = some [root] ∧ root.full = true ∧
        (2 ≤ nodes.length → ∃ f l r, root = HNode.mk 42 f l r ∧ l.full = true ∧ r.full = true) ∧
        (nodes.length = 1 → nodes = [root]) := by
  intro fuel
  induction fuel with
  | zero => intro nodes _ h1 h2; omega
  | succ fuel ih =>
    intro nodes hfull h1 hf
    match nodes, hfull, h1, hf with
    | [], _, h1, _ => simp at h1
    | [a], hfull, _, _ =>
      exact ⟨a, by simp [mergeLoop], hfull a (by simp), by simp, by simp⟩
    | n0 :: n1 :: rest, hfull, _, hf =>
      have hn0 : n0.full = true := hfull n0 (by simp)
      have hn1 : n1.full = true := hfull n1 (by simp)
      obtain ⟨f0, hf0⟩ := frequency_of_full hn0
      obtain ⟨f1, hf1⟩ := frequency_of_full hn1
      have hnew : (HNode.mk 42 (f0 + f1) n0 n1).full = true := by
        simp [HNode.full, hn0, hn1]
      have hfull1 : ∀ x ∈ HNode.mk 42 (f0 + f1) n0 n1 :: rest, x.full = true := by
        intro x hx
        rcases List.mem_cons.mp hx with h | h
        · rw [h]; exact hnew
        · exact hfull x (by simp [h])
      obtain ⟨nodes2, hsort, hperm⟩ :=
        sort_spec (HNode.mk 42 (f0 + f1) n0 n1 :: rest) 0
          (((HNode.mk 42 (f0 + f1) n0 n1 :: rest).length : Int) - 1)
          (noNil_of_full hfull1) (le_refl _) (by omega)
      have hlen2 : nodes2.length = rest.length + 1 := by
        rw [hperm.length_eq]; simp
      have hfull2 : ∀ x ∈ nodes2, x.full = true := fun x hx => hfull1 x (hperm.subset hx)
      obtain ⟨root, hloop, hroot, hint, hone⟩ :=
        ih nodes2 hfull2 (by omega) (by simp at hf; omega)
      refine ⟨root, ?_, hroot, ?_, ?_⟩
      · have hi0 : index (n0 :: n1 :: rest) 0 = some n0 := by simp [index]
        have hi1 : index (n0 :: n1 :: rest) 1 = some n1 := by simp [index]
        have hlen : (n0 :: n1 :: rest).length > 1 := by simp
        rw [mergeLoop]
        simp only [hlen, if_true, hi0, hi1, hf0, hf1, List.set, List.drop]
        simp only [List.length_cons] at hsort ⊢
        rw [hsort]
        exact hloop
      · intro _
        by_cases h2 : 2 ≤ nodes2.length
        · exact hint h2
        · have h1 : nodes2.length = 1 := by omega
          have hmem : HNode.mk 42 (f0 + f1) n0 n1 ∈ nodes2 := hperm.symm.subset (by simp)
          rw [hone h1] at hmem
          simp at hmem
          exact ⟨f0 + f1, n0, n1, hmem.symm, hn0, hn1⟩
      · intro h; simp at h

/-! ## The frequency map -/

theorem mem_keys_incr (hash : List (Nat × Nat)) (k k1 : Nat) :
    k1 ∈ (incr hash k).map Prod.fst ↔ k1 = k ∨ k1 ∈ hash.map Prod.fst := by
  induction hash with
  | nil => simp [incr]
  | cons e rest ih =>
    obtain ⟨k2, c⟩ := e
    by_cases h : k2 = k
    · subst h; simp [incr]
    · simp only [incr, h, if_false, List.map_cons, List.mem_cons, ih]
      tauto

theorem incr_ne_nil (hash : List (Nat × Nat)) (k : Nat) : incr hash k ≠ [] := by
  cases hash with
  | nil => simp [incr]
  | cons e rest =>
    obtain ⟨k2, c⟩ := e
    by_cases h : k2 = k <;> simp [incr, h]

theorem mem_keys_countLine (line : List Nat) :
    ∀ (hash : List (Nat × Nat)) (k : Nat),
      k ∈ (countLine hash line).map Prod.fst ↔
        k ∈ hash.map Prod.fst ∨ ∃ l ∈ line, l % 256 = k := by
  induction line with
  | nil => intro hash k; simp [countLine]
  | cons l rest ih =>
    intro hash k
    have h := ih (incr hash (l % 256)) k
    simp only [countLine, List.foldl_cons] at h ⊢
    rw [h, mem_keys_incr]
    constructor
    · rintro ((h1 | h1) | ⟨m, hm, hk⟩)
      · exact Or.inr ⟨l, by simp, h1.symm⟩
      · exact Or.inl h1
      · exact Or.inr ⟨m, by simp [hm], hk⟩
    · rintro (h1 | ⟨m, hm, hk⟩)
      · exact Or.inl (Or.inr h1)
      · rcases List.mem_cons.mp hm with h2 | h2
        · subst h2; exact Or.inl (Or.inl hk.symm)
        · exact Or.inr ⟨m, h2, hk⟩

theorem foldl_countLine (lines : List (List Nat)) :
    ∀ hash : List (Nat × Nat), lines.foldl countLine hash = countLine hash (runes lines) := by
  induction lines with
  | nil => intro hash; simp [runes, countLine]
  | cons line rest ih =>
    intro hash
    simp only [List.foldl_cons, ih, runes, List.flatten_cons]
    simp [countLine, List.foldl_append]

theorem countLines_eq (lines : List (List Nat)) :
    countLines lines = countLine [] (runes lines) :=
  foldl_countLine lines []

theorem mem_keys_countLines (lines : List (List Nat)) (k : Nat) :
    k ∈ (countLines lines).map Prod.fst ↔ ∃ l ∈ runes lines, l % 256 = k := by
  rw [countLines_eq, mem_keys_countLine]; simp

theorem countLines_eq_nil_iff (lines : List (List Nat)) :
    countLines lines = [] ↔ runes lines = [] := by
  constructor
  · intro h
    cases hr : runes lines with
    | nil => rfl
    | cons l rest =>
      have hk : l % 256 ∈ (countLines lines).map Prod.fst :=
        (mem_keys_countLines lines _).mpr ⟨l, by simp [hr], rfl⟩
      rw [h] at hk; simp at hk
  · intro h; rw [countLines_eq, h]; rfl

theorem two_le_length_countLines (lines : List (List Nat)) (a b : Nat)
    (ha : a ∈ runes lines) (hb : b ∈ runes lines) (hab : a % 256 ≠ b % 256) :
    2 ≤ (countLines lines).length := by
  have h1 : a % 256 ∈ (countLines lines).map Prod.fst :=
    (mem_keys_countLines lines _).mpr ⟨a, ha, rfl⟩
  have h2 : b % 256 ∈ (countLines lines).map Prod.fst :=
    (mem_keys_countLines lines _).mpr ⟨b, hb, rfl⟩
  match hm : (countLines lines).map Prod.fst, h1, h2 with
  | [], h1, _ => simp at h1
  | [x], h1, h2 =>
    simp at h1 h2; omega
  | x :: y :: rest, _, _ =>
    have hl := congrArg List.length hm
    simp at hl; omega

theorem countLine_replicate (k c : Nat) (s : Nat) (hs : s % 256 = k) :
    ∀ n : Nat, countLine [(k, c)] (List.replicate n s) = [(k, c + n)] := by
  intro n
  induction n generalizing c with
  | zero => simp [countLine]
  | succ n ih =>
    have h := ih (c + 1)
    simp only [countLine, List.replicate_succ, List.foldl_cons, incr, hs, if_true] at h ⊢
    rw [h]; congr 2; omega

theorem countLines_single (lines : List (List Nat)) (s n : Nat)
    (h : runes lines = List.replicate (n + 1) s) : countLines lines = [(s % 256, n + 1)] := by
  rw [countLines_eq, h]
  have h1 := countLine_replicate (s % 256) 1 s rfl n
  simp only [countLine, List.replicate_succ, List.foldl_cons, incr] at h1 ⊢
  rw [h1]; congr 2; omega

/-! ## What `New` returns -/

theorem full_leafNodes (order : List (Nat × Nat)) : ∀ x ∈ leafNodes order, x.full = true := by
  intro x hx
  simp only [leafNodes, List.mem_map] at hx
  obtain ⟨e, _, he⟩ := hx
  subst he; simp [HNode.full]

theorem New_spec (lines : List (List Nat)) (order : List (Nat × Nat))
    (hperm : order.Perm (countLines lines)) (hne : runes lines ≠ []) :
    ∃ root, New lines order = some (some { reader := [], root := root }) ∧ root.full = true ∧
      (2 ≤ (countLines lines).length →
        ∃ f l r, root = HNode.mk 42 f l r ∧ l.full = true ∧ r.full = true) ∧
      ((countLines lines).length = 1 → leafNodes order = [root]) := by
  have hhash : countLines lines ≠ [] := fun h => hne ((countLines_eq_nil_iff lines).mp h)
  have hlen0 : 1 ≤ (countLines lines).length := by
    cases hc : countLines lines with
    | nil => exact absurd hc hhash
    | cons e rest => simp
  have hlenN : (leafNodes order).length = (countLines lines).length := by
    simp [leafNodes, hperm.length_eq]
  obtain ⟨nodes1, hsort, hperm1⟩ :=
    sort_spec (leafNodes order) 0 (((leafNodes order).length : Int) - 1)
      (noNil_of_full (full_leafNodes order)) (le_refl _) (by omega)
  have hlen1 : nodes1.length = (countLines lines).length := hperm1.length_eq.trans hlenN
  obtain ⟨root, hloop, hroot, hint, hone⟩ :=
    mergeLoop_spec (nodes1.length + 1) nodes1
      (fun x hx => full_leafNodes order x (hperm1.subset hx)) (by omega) (by omega)
  refine ⟨root, ?_, hroot, fun h => hint (by omega), ?_⟩
  · have hnot : ¬ (countLines lines).length < 1 := by omega
    have hidx : index [root] 0 = some root := by simp [index]
    simp [New, HTree.generateHuffmanTree, hnot, hsort, hloop, hidx]
  · intro h
    have h1 := hone (by omega)
    rw [h1] at hperm1
    exact List.perm_singleton.mp hperm1.symm

/-! ## The decoder on a full tree -/

theorem descend_nil (p : List Nat) : descend HNode.nil p = HNode.nil := by
  cases p <;> rfl

theorem descend_empty (t : HNode) : descend t [] = t := by
  cases t <;> rfl

theorem full_cases {v f : Nat} {l r : HNode} (h : (HNode.mk v f l r).full = true) :
    (l = HNode.nil ∧ r = HNode.nil) ∨ (l.full = true ∧ r.full = true) := by
  simpa [HNode.full] using h

theorem decodeStep_leaf (rv rf : Nat) (rl rr : HNode) (acc : List Nat) (v f e : Nat) :
    decodeStep (HNode.mk rv rf rl rr) acc (HNode.mk v f HNode.nil HNode.nil) e =
      some (acc ++ [v], if e % 256 = 48 then rl else if e % 256 = 49 then rr
        else HNode.mk rv rf rl rr) := by
  by_cases h0 : e % 256 = 48
  · simp [decodeStep, HNode.left, HNode.right, h0]
  · by_cases h1 : e % 256 = 49
    · simp [decodeStep, HNode.left, HNode.right, h1]
    · simp [decodeStep, HNode.left, HNode.right, h0, h1]

theorem decodeStep_internal (root : HNode) (acc : List Nat) (v f : Nat) (l r : HNode) (e : Nat)
    (hl : l.full = true) :
    decodeStep root acc (HNode.mk v f l r) e =
      some (acc, if e % 256 = 48 then l else if e % 256 = 49 then r else HNode.mk v f l r) := by
  have hne : l ≠ HNode.nil := full_ne_nil hl
  by_cases h0 : e % 256 = 48
  · simp [decodeStep, HNode.left, HNode.right, h0, hne]
  · by_cases h1 : e % 256 = 49
    · simp [decodeStep, HNode.left, HNode.right, h1, hne]
    · simp [decodeStep, HNode.left, HNode.right, h0, h1, hne]

theorem decodeLoop_total (rv rf : Nat) (rl rr : HNode) (hrl : rl.full = true)
    (hrr : rr.full = true) :
    ∀ (enc acc : List Nat) (node : HNode), node.full = true →
      ∃ out node1, decodeLoop (HNode.mk rv rf rl rr) acc node enc = some (out, node1) ∧
        node1.full = true := by
  have hroot : (HNode.mk rv rf rl rr).full = true := by simp [HNode.full, hrl, hrr]
  intro enc
  induction enc with
  | nil => intro acc node hn; exact ⟨acc, node, rfl, hn⟩
  | cons e rest ih =>
    intro acc node hn
    cases node with
    | nil => simp [HNode.full] at hn
    | mk v f l r =>
      rcases full_cases hn with ⟨h1, h2⟩ | ⟨h1, h2⟩
      · subst h1; subst h2
        obtain ⟨out, node1, hloop, hfull⟩ :=
          ih (acc ++ [v]) (if e % 256 = 48 then rl else if e % 256 = 49 then rr
            else HNode.mk rv rf rl rr) (by split_ifs <;> assumption)
        exact ⟨out, node1, by simp only [decodeLoop, decodeStep_leaf, hloop], hfull⟩
      · obtain ⟨out, node1, hloop, hfull⟩ :=
          ih acc (if e % 256 = 48 then l else if e % 256 = 49 then r else HNode.mk v f l r)
            (by split_ifs <;> assumption)
        exact ⟨out, node1, by simp only [decodeLoop, decodeStep_internal _ _ _ _ _ _ _ h1, hloop],
          hfull⟩

theorem decodeLoop_descend (root : HNode) :
    ∀ (p : List Nat) (node : HNode) (acc rest : List Nat), node.full = true →
      descend node p ≠ HNode.nil →
      decodeLoop root acc node (p ++ rest) = decodeLoop root acc (descend node p) rest := by
  intro p
  induction p with
  | nil => intro node acc rest _ _; rw [descend_empty]; rfl
  | cons b q ih =>
    intro node acc rest hn hd
    cases node with
    | nil => simp [HNode.full] at hn
    | mk v f l r =>
      rcases full_cases hn with ⟨h1, h2⟩ | ⟨h1, h2⟩
      · subst h1; subst h2
        exfalso; apply hd
        simp only [descend, descend_nil]; split_ifs <;> rfl
      · by_cases h0 : b = 48
        · subst h0
          have hd1 : descend l q ≠ HNode.nil := by simpa [descend] using hd
          simp only [List.cons_append, decodeLoop, decodeStep_internal _ _ _ _ _ _ _ h1]
          simp only [descend, if_true]
          exact ih l acc rest h1 hd1
        · by_cases h9 : b = 49
          · subst h9
            have hd1 : descend r q ≠ HNode.nil := by simpa [descend] using hd
            simp only [List.cons_append, decodeLoop, decodeStep_internal _ _ _ _ _ _ _ h1]
            simp only [descend]
            exact ih r acc rest h2 hd1
          · exfalso; apply hd; simp [descend, h0, h9]

theorem decodeLoop_leaf_descend (rv rf : Nat) (rl rr : HNode) (hrl : rl.full = true)
    (hrr : rr.full = true) (acc : List Nat) (v f : Nat) (p rest : List Nat) (hp : p ≠ [])
    (hd : descend (HNode.mk rv rf rl rr) p ≠ HNode.nil) :
    decodeLoop (HNode.mk rv rf rl rr) acc (HNode.mk v f HNode.nil HNode.nil) (p ++ rest) =
      decodeLoop (HNode.mk rv rf rl rr) (acc ++ [v]) (descend (HNode.mk rv rf rl rr) p) rest := by
  cases p with
  | nil => exact absurd rfl hp
  | cons b q =>
    by_cases h0 : b = 48
    · subst h0
      have hd1 : descend rl q ≠ HNode.nil := by simpa [descend] using hd
      simp only [List.cons_append, decodeLoop, decodeStep_leaf]
      simp only [descend, if_true]
      exact decodeLoop_descend _ q rl _ rest hrl hd1
    · by_cases h9 : b = 49
      · subst h9
        have hd1 : descend rr q ≠ HNode.nil := by simpa [descend] using hd
        simp only [List.cons_append, decodeLoop, decodeStep_leaf]
        simp only [descend]
        exact decodeLoop_descend _ q rr _ rest hrr hd1
      · exfalso; apply hd; simp [descend, h0, h9]

theorem decodeLoop_codes (rv rf : Nat) (rl rr : HNode) (hrl : rl.full = true)
    (hrr : rr.full = true) :
    ∀ (ps : List (List Nat)) (ss : List Nat),
      List.Forall₂ (IsCode (HNode.mk rv rf rl rr)) ps ss →
      ∀ (acc : List Nat) (v f : Nat) (rest : List Nat),
        ∃ sl fl, (v :: ss).getLast? = some sl ∧
          decodeLoop (HNode.mk rv rf rl rr) acc (HNode.mk v f HNode.nil HNode.nil)
              (ps.flatten ++ rest) =
            decodeLoop (HNode.mk rv rf rl rr) (acc ++ (v :: ss).dropLast)
              (HNode.mk sl fl HNode.nil HNode.nil) rest := by
  intro ps ss h
  induction h with
  | nil => intro acc v f rest; exact ⟨v, f, rfl, by simp⟩
  | @cons p s ps1 ss1 hps _ ih =>
    intro acc v f rest
    obtain ⟨fs, hfs⟩ := hps
    have hne : p ≠ [] := by
      intro hp; subst hp
      rw [descend_empty] at hfs
      injection hfs with _ _ h3 _
      subst h3; simp [HNode.full] at hrl
    have hd : descend (HNode.mk rv rf rl rr) p ≠ HNode.nil := by rw [hfs]; simp
    obtain ⟨sl, fl, hlast, hloop⟩ := ih (acc ++ [v]) s fs rest
    refine ⟨sl, fl, ?_, ?_⟩
    · rw [List.getLast?_cons_cons]; exact hlast
    · rw [List.flatten_cons, List.append_assoc,
        decodeLoop_leaf_descend rv rf rl rr hrl hrr acc v f p _ hne hd, hfs, hloop]
      simp

theorem New_two (lines : List (List Nat)) (order : List (Nat × Nat)) (h : HTree)
    (hperm : order.Perm (countLines lines)) (a b : Nat) (ha : a ∈ runes lines)
    (hb : b ∈ runes lines) (hab : a % 256 ≠ b % 256)
    (hnew : New lines order = some (some h)) :
    ∃ f l r, h.root = HNode.mk 42 f l r ∧ l.full = true ∧ r.full = true := by
  obtain ⟨root, hroot, _, hint, _⟩ :=
    New_spec lines order hperm (List.ne_nil_of_mem ha)
  rw [hroot] at hnew
  have hh : h = { reader := [], root := root } := by
    injection hnew with h1; injection h1 with h2; exact h2.symm
  subst hh
  exact hint (two_le_length_countLines lines a b ha hb hab)

theorem Decode_total_of_internal (h : HTree) (f : Nat) (l r : HNode)
    (hroot : h.root = HNode.mk 42 f l r) (hl : l.full = true) (hr : r.full = true)
    (enc : List Nat) : ∃ out, h.Decode enc = some out := by
  obtain ⟨out, node1, hloop, _⟩ :=
    decodeLoop_total 42 f l r hl hr enc [] (HNode.mk 42 f l r) (by simp [HNode.full, hl, hr])
  exact ⟨out, by simp [HTree.Decode, hroot, hloop]⟩

theorem Decode_codes (h : HTree) (f : Nat) (l r : HNode)
    (hroot : h.root = HNode.mk 42 f l r) (hl : l.full = true) (hr : r.full = true)
    (ps : List (List Nat)) (ss : List Nat) (hcodes : List.Forall₂ (IsCode h.root) ps ss) :
    h.Decode ps.flatten = some ss.dropLast := by
  rw [hroot] at hcodes
  have hfull : (HNode.mk 42 f l r).full = true := by simp [HNode.full, hl, hr]
  cases hcodes with
  | nil => simp [HTree.Decode, hroot, decodeLoop]
  | @cons p s ps1 ss1 hps hrest =>
    obtain ⟨fs, hfs⟩ := hps
    have hd : descend (HNode.mk 42 f l r) p ≠ HNode.nil := by rw [hfs]; simp
    obtain ⟨sl, fl, _, hloop⟩ := decodeLoop_codes 42 f l r hl hr ps1 ss1 hrest [] s fs []
    have h1 := decodeLoop_descend (HNode.mk 42 f l r) p (HNode.mk 42 f l r) [] ps1.flatten
      hfull hd
    rw [hfs] at h1
    simp only [List.append_nil] at hloop
    simp [HTree.Decode, hroot, h1, hloop, decodeLoop]

theorem Decode_codes_truncated (h : HTree) (f : Nat) (l r : HNode)
    (hroot : h.root = HNode.mk 42 f l r) (hl : l.full = true) (hr : r.full = true)
    (ps : List (List Nat)) (ss : List Nat) (hcodes : List.Forall₂ (IsCode h.root) ps ss)
    (q : List Nat) (hq : q ≠ []) (hd : descend h.root q ≠ HNode.nil) :
    h.Decode (ps.flatten ++ q) = some ss := by
  rw [hroot] at hcodes hd
  have hfull : (HNode.mk 42 f l r).full = true := by simp [HNode.full, hl, hr]
  cases hcodes with
  | nil =>
    have h1 := decodeLoop_descend (HNode.mk 42 f l r) q (HNode.mk 42 f l r) [] [] hfull hd
    simp only [List.append_nil] at h1
    simp [HTree.Decode, hroot, h1, decodeLoop]
  | @cons p s ps1 ss1 hps hrest =>
    obtain ⟨fs, hfs⟩ := hps
    have hdp : descend (HNode.mk 42 f l r) p ≠ HNode.nil := by rw [hfs]; simp
    obtain ⟨sl, fl, hlast, hloop⟩ := decodeLoop_codes 42 f l r hl hr ps1 ss1 hrest [] s fs q
    have h1 := decodeLoop_descend (HNode.mk 42 f l r) p (HNode.mk 42 f l r) []
      (ps1.flatten ++ q) hfull hdp
    have h2 := decodeLoop_leaf_descend 42 f l r hl hr ([] ++ (s :: ss1).dropLast) sl fl q []
      hq hd
    simp only [List.append_nil] at h2
    rw [hfs] at h1
    have h3 : (s :: ss1).dropLast ++ [sl] = s :: ss1 :=
      List.dropLast_append_getLast? sl hlast
    simp only [List.nil_append] at h2 hloop
    simp [HTree.Decode, hroot, List.append_assoc, h1, hloop, h2, decodeLoop, h3]

/-! ## The encoder and the trees `New` returns -/

theorem encode_chars (t : HNode) (marker : Nat) :
    ∀ c ∈ HNode.encode t marker [], c = 48 ∨ c = 49 := by
  cases t with
  | nil => intro c hc; simp [HNode.encode] at hc
  | mk v f l r =>
    intro c hc
    simp only [HNode.encode] at hc
    split_ifs at hc <;> simp at hc <;> omega

theorem encodeLines_chars (root : HNode) (lines : List (List Nat)) :
    ∀ c ∈ encodeLines root lines, c = 48 ∨ c = 49 := by
  intro c hc
  simp only [encodeLines, List.mem_flatten, List.mem_map] at hc
  obtain ⟨_, ⟨line, _, rfl⟩, hc⟩ := hc
  simp only [List.mem_flatten, List.mem_map] at hc
  obtain ⟨_, ⟨l, _, rfl⟩, hc⟩ := hc
  exact encode_chars root (l % 256) c hc

theorem New_of_empty (lines : List (List Nat)) (order : List (Nat × Nat))
    (h : runes lines = []) :
    HTree.generateHuffmanTree { reader := lines, root := HNode.nil } order =
        some ({ reader := [], root := HNode.nil }, some "huffman: no huffman nodes generated") ∧
      New lines order = some none := by
  have hc : countLines lines = [] := (countLines_eq_nil_iff lines).mpr h
  constructor
  · simp [HTree.generateHuffmanTree, hc]
  · simp [New, HTree.generateHuffmanTree, hc]

theorem New_root_full (lines : List (List Nat)) (order : List (Nat × Nat)) (h : HTree)
    (hperm : order.Perm (countLines lines)) (hnew : New lines order = some (some h)) :
    h.root.full = true := by
  by_cases hr : runes lines = []
  · rw [(New_of_empty lines order hr).2] at hnew
    simp at hnew
  · obtain ⟨root, hroot, hfull, _, _⟩ := New_spec lines order hperm hr
    rw [hroot] at hnew
    have hh : h = { reader := [], root := root } := by
      injection hnew with h1; injection h1 with h2; exact h2.symm
    subst hh
    exact hfull

/-! ## The partition: what it reads, what it moves, what it returns -/

theorem fq_of_freqAt {nodes : List HNode} {k : Int} {f : Nat} (h : freqAt nodes k = some f) :
    fq nodes k = f := by
  simp [fq, h]

theorem fq_of_index_eq {nodes nodes1 : List HNode} {k k1 : Int}
    (h : index nodes1 k = index nodes k1) : fq nodes1 k = fq nodes k1 := by
  simp [fq, freqAt, h]

theorem freqAt_of_index_eq {nodes nodes1 : List HNode} {k k1 : Int}
    (h : index nodes1 k = index nodes k1) : freqAt nodes1 k = freqAt nodes k1 := by
  simp [freqAt, h]

theorem freqAt_lt_length {nodes : List HNode} {k : Int} {f : Nat}
    (h : freqAt nodes k = some f) : 0 ≤ k ∧ k < nodes.length := by
  unfold freqAt index at h
  by_cases h0 : 0 ≤ k
  · refine ⟨h0, ?_⟩
    by_contra hlt
    have : nodes[k.toNat]? = none := List.getElem?_eq_none (by omega)
    simp [h0, this] at h
  · simp [h0] at h

theorem Frame.refl (lo hi : Int) (nodes : List HNode) : Frame lo hi nodes nodes :=
  ⟨rfl, fun _ _ => rfl, fun k h1 h2 => ⟨k, h1, h2, rfl⟩⟩

theorem Frame.trans {lo hi : Int} {a b c : List HNode} (h1 : Frame lo hi a b)
    (h2 : Frame lo hi b c) : Frame lo hi a c := by
  obtain ⟨l1, o1, i1⟩ := h1
  obtain ⟨l2, o2, i2⟩ := h2
  refine ⟨l2.trans l1, fun k hk => (o2 k hk).trans (o1 k hk), ?_⟩
  intro k hlo hhi
  obtain ⟨k1, a1, b1, e1⟩ := i2 k hlo hhi
  obtain ⟨k2, a2, b2, e2⟩ := i1 k1 a1 b1
  exact ⟨k2, a2, b2, e1.trans e2⟩

theorem Frame.mono {lo hi lo1 hi1 : Int} {a b : List HNode} (h : Frame lo hi a b)
    (hlo : lo1 ≤ lo) (hhi : hi ≤ hi1) : Frame lo1 hi1 a b := by
  obtain ⟨l1, o1, i1⟩ := h
  refine ⟨l1, fun k hk => o1 k (by omega), ?_⟩
  intro k h1 h2
  by_cases hin : lo ≤ k ∧ k ≤ hi
  · obtain ⟨k1, a1, b1, e1⟩ := i1 k hin.1 hin.2
    exact ⟨k1, by omega, by omega, e1⟩
  · exact ⟨k, h1, h2, o1 k (by omega)⟩

theorem Win.of_frame {lo hi : Int} {a b : List HNode} (h : Frame lo hi a b) (hw : Win a lo hi) :
    Win b lo hi := by
  intro k h1 h2
  obtain ⟨k1, a1, b1, e1⟩ := h.2.2 k h1 h2
  obtain ⟨f, hf⟩ := hw k1 a1 b1
  exact ⟨f, by rw [freqAt_of_index_eq e1]; exact hf⟩

theorem scanUp_window (nodes : List HNode) (pivot : Nat) :
    ∀ (fuel : Nat) (i k : Int), 0 ≤ i → i ≤ k → k < nodes.length →
      (∀ m, i ≤ m → m ≤ k → ∃ f, freqAt nodes m = some f) → pivot ≤ fq nodes k →
      (k - i).toNat + 1 ≤ fuel →
      ∃ i1, scanUp nodes pivot fuel i = some i1 ∧ i ≤ i1 ∧ i1 ≤ k ∧ pivot ≤ fq nodes i1 ∧
        ∀ m, i ≤ m → m < i1 → fq nodes m < pivot := by
  intro fuel
  induction fuel with
  | zero => intro i k _ _ _ _ _ hf; omega
  | succ fuel ih =>
    intro i k h0 hik hk hw hp hf
    obtain ⟨f, hfi⟩ := hw i (le_refl _) hik
    have hfq : fq nodes i = f := fq_of_freqAt hfi
    by_cases hlt : f < pivot
    · have hne : i ≠ k := by
        intro h; subst h; omega
      obtain ⟨i1, hs, h1, h2, h3, h4⟩ :=
        ih (i + 1) k (by omega) (by omega) hk (fun m hm1 hm2 => hw m (by omega) hm2) hp
          (by omega)
      refine ⟨i1, ?_, by omega, h2, h3, ?_⟩
      · simp [scanUp, hfi, hlt, hs]
      · intro m hm1 hm2
        by_cases hmi : m = i
        · subst hmi; omega
        · exact h4 m (by omega) hm2
    · refine ⟨i, ?_, le_refl _, hik, by omega, ?_⟩
      · simp [scanUp, hfi, hlt]
      · intro m hm1 hm2; omega

theorem scanDown_window (nodes : List HNode) (pivot : Nat) :
    ∀ (fuel : Nat) (j k : Int), 0 ≤ k → k ≤ j → j < nodes.length →
      (∀ m, k ≤ m → m ≤ j → ∃ f, freqAt nodes m = some f) → fq nodes k ≤ pivot →
      (j - k).toNat + 1 ≤ fuel →
      ∃ j1, scanDown nodes pivot fuel j = some j1 ∧ k ≤ j1 ∧ j1 ≤ j ∧ fq nodes j1 ≤ pivot ∧
        ∀ m, j1 < m → m ≤ j → pivot < fq nodes m := by
  intro fuel
  induction fuel with
  | zero => intro j k _ _ _ _ _ hf; omega
  | succ fuel ih =>
    intro j k h0 hkj hj hw hp hf
    obtain ⟨f, hfj⟩ := hw j hkj (le_refl _)
    have hfq : fq nodes j = f := fq_of_freqAt hfj
    by_cases hgt : f > pivot
    · have hne : j ≠ k := by
        intro h; subst h; omega
      obtain ⟨j1, hs, h1, h2, h3, h4⟩ :=
        ih (j - 1) k h0 (by omega) (by omega) (fun m hm1 hm2 => hw m hm1 (by omega)) hp
          (by omega)
      refine ⟨j1, ?_, h1, by omega, h3, ?_⟩
      · simp [scanDown, hfj, hgt, hs]
      · intro m hm1 hm2
        by_cases hmj : m = j
        · subst hmj; omega
        · exact h4 m hm1 (by omega)
    · refine ⟨j, ?_, hkj, le_refl _, by omega, ?_⟩
      · simp [scanDown, hfj, hgt]
      · intro m hm1 hm2; omega

theorem swap_frame (nodes : List HNode) (lo hi i j : Int) (hlo : lo ≤ i) (hij : i ≤ j)
    (hhi : j ≤ hi) (hi0 : 0 ≤ i) (hj : j < nodes.length) :
    ∃ nodes1, swap nodes i j = some nodes1 ∧ nodes1.Perm nodes ∧ Frame lo hi nodes nodes1 ∧
      index nodes1 i = index nodes j ∧ index nodes1 j = index nodes i ∧
      ∀ m, m ≠ i → m ≠ j → index nodes1 m = index nodes m := by
  obtain ⟨nodes1, hsw, hperm, h1, h2, h3⟩ :=
    swap_spec nodes i j hi0 (by omega) (by omega) hj
  refine ⟨nodes1, hsw, hperm, ⟨hperm.length_eq, ?_, ?_⟩, h1, h2, h3⟩
  · intro k hk
    exact h3 k (by omega) (by omega)
  · intro k hk1 hk2
    by_cases hki : k = i
    · subst hki; exact ⟨j, by omega, hhi, h1⟩
    · by_cases hkj : k = j
      · subst hkj; exact ⟨i, hlo, by omega, h2⟩
      · exact ⟨k, hk1, hk2, h3 k hki hkj⟩

theorem partitionLoop_post (pivot : Nat) (start stop : Int) :
    ∀ (fuel : Nat) (nodes : List HNode) (i j : Int), 0 ≤ start → stop < nodes.length →
      Win nodes start stop → start ≤ i → i ≤ stop → j ≤ stop → (start < i ∨ i ≤ j) →
      (i ≤ j → ∃ ku kd, i ≤ ku ∧ ku ≤ stop ∧ (ku < stop ∨ j < stop) ∧ pivot ≤ fq nodes ku ∧
          start ≤ kd ∧ kd ≤ j ∧ fq nodes kd ≤ pivot ∧ (start < i ∨ ku ≤ kd)) →
      (∀ k, start ≤ k → k < i → fq nodes k ≤ pivot) →
      (∀ k, j < k → k ≤ stop → pivot ≤ fq nodes k) →
      (j + 1 - i).toNat + 1 ≤ fuel →
      ∃ nodes1 p, partitionLoop pivot fuel nodes i j = some (nodes1, p) ∧ nodes1.Perm nodes ∧
        start < p ∧ p ≤ stop ∧ Frame start stop nodes nodes1 ∧
        (∀ k, start ≤ k → k < p → fq nodes1 k ≤ pivot) ∧
        (∀ k, p ≤ k → k ≤ stop → pivot ≤ fq nodes1 k) := by
  intro fuel
  induction fuel with
  | zero => intro nodes i j _ _ _ _ _ _ _ _ _ _ hf; omega
  | succ fuel ih =>
    intro nodes i j hs0 hstop hwin hsi his hjs hdis hsent hlow hhigh hf
    by_cases hij : i ≤ j
    · obtain ⟨ku, kd, h1, h2, h3, h5, h6, h7, h9, h10⟩ := hsent hij
      obtain ⟨i1, hsu, hu1, hu2, hu4, hu5⟩ :=
        scanUp_window nodes pivot (nodes.length + 1) i ku (by omega) h1 (by omega)
          (fun m hm1 hm2 => hwin m (by omega) (by omega)) h5 (by omega)
      obtain ⟨j1, hsd, hd1, hd2, hd4, hd5⟩ :=
        scanDown_window nodes pivot (nodes.length + 1) j kd (by omega) h7 (by omega)
          (fun m hm1 hm2 => hwin m (by omega) (by omega)) h9 (by omega)
      by_cases hsw : i1 ≤ j1
      · obtain ⟨nodes1, hswap, hperm, hframe, hx1, hx2, hx3⟩ :=
          swap_frame nodes start stop i1 j1 (by omega) hsw (by omega) (by omega) (by omega)
        have hlen : nodes1.length = nodes.length := hperm.length_eq
        have hf1 : fq nodes1 i1 = fq nodes j1 := fq_of_index_eq hx1
        have hf2 : fq nodes1 j1 = fq nodes i1 := fq_of_index_eq hx2
        have hlow1 : ∀ k, start ≤ k → k < i1 + 1 → fq nodes1 k ≤ pivot := by
          intro k hk1 hk2
          by_cases hki : k = i1
          · subst hki; rw [hf1]; exact hd4
          · rw [fq_of_index_eq (hx3 k hki (by omega))]
            by_cases hk3 : k < i
            · exact hlow k hk1 hk3
            · exact le_of_lt (hu5 k (by omega) (by omega))
        have hhigh1 : ∀ k, j1 - 1 < k → k ≤ stop → pivot ≤ fq nodes1 k := by
          intro k hk1 hk2
          by_cases hkj : k = j1
          · subst hkj; rw [hf2]; exact hu4
          · rw [fq_of_index_eq (hx3 k (by omega) hkj)]
            by_cases hk3 : j < k
            · exact hhigh k hk3 hk2
            · exact le_of_lt (hd5 k (by omega) (by omega))
        obtain ⟨nodes2, p, hloop, hperm2, hp1, hp2, hframe2, hq1, hq2⟩ :=
          ih nodes1 (i1 + 1) (j1 - 1) hs0 (by omega) (Win.of_frame hframe hwin) (by omega)
            (by omega) (by omega) (Or.inl (by omega))
            (fun hle => ⟨j1, i1, by omega, by omega, Or.inr (by omega), by rw [hf2]; exact hu4,
              by omega, by omega, by rw [hf1]; exact hd4, Or.inl (by omega)⟩)
            hlow1 hhigh1 (by omega)
        refine ⟨nodes2, p, ?_, hperm2.trans hperm, hp1, hp2, hframe.trans hframe2, hq1, hq2⟩
        simp [partitionLoop, hij, hsu, hsd, hsw, hswap, hloop]
      · have hlt : start < i1 := by
          rcases h10 with h | h
          · omega
          · omega
        obtain ⟨nodes2, p, hloop, hperm2, hp1, hp2, hframe2, hq1, hq2⟩ :=
          ih nodes i1 j1 hs0 hstop hwin (by omega) (by omega) (by omega) (Or.inl hlt)
            (fun hle => absurd hle hsw)
            (fun k hk1 hk2 => by
              by_cases hk3 : k < i
              · exact hlow k hk1 hk3
              · exact le_of_lt (hu5 k (by omega) hk2))
            (fun k hk1 hk2 => by
              by_cases hk3 : j < k
              · exact hhigh k hk3 hk2
              · exact le_of_lt (hd5 k hk1 (by omega)))
            (by omega)
        refine ⟨nodes2, p, ?_, hperm2, hp1, hp2, hframe2, hq1, hq2⟩
        simp [partitionLoop, hij, hsu, hsd, hsw, hloop]
    · refine ⟨nodes, i, ?_, List.Perm.refl _, ?_, his, Frame.refl _ _ _, hlow, ?_⟩
      · simp [partitionLoop, hij]
      · rcases hdis with h | h
        · exact h
        · exact absurd h hij
      · intro k hk1 hk2
        exact hhigh k (by omega) hk2

theorem partition_post (nodes : List HNode) (start stop : Int) (hs0 : 0 ≤ start)
    (hlt : start < stop) (hstop : stop < nodes.length) (hwin : Win nodes start stop) :
    ∃ nodes1 p pivot, partition nodes start stop = some (nodes1, p) ∧ nodes1.Perm nodes ∧
      start < p ∧ p ≤ stop ∧ Frame start stop nodes nodes1 ∧
      (∀ k, start ≤ k → k < p → fq nodes1 k ≤ pivot) ∧
      (∀ k, p ≤ k → k ≤ stop → pivot ≤ fq nodes1 k) := by
  have hdiv : (start + stop).tdiv 2 = (start + stop) / 2 :=
    Int.tdiv_eq_ediv (by omega) (by omega)
  obtain ⟨pivot, hpv⟩ := hwin ((start + stop) / 2) (by omega) (by omega)
  have hfq : fq nodes ((start + stop) / 2) = pivot := fq_of_freqAt hpv
  obtain ⟨nodes1, p, hloop, hperm, hp1, hp2, hframe, hq1, hq2⟩ :=
    partitionLoop_post pivot start stop (nodes.length + 2) nodes start stop hs0 hstop hwin
      (le_refl _) (by omega) (le_refl _) (Or.inr (by omega))
      (fun _ => ⟨(start + stop) / 2, (start + stop) / 2, by omega, by omega,
        Or.inl (by omega), by omega, by omega, by omega, by omega, Or.inr (le_refl _)⟩)
      (fun k hk1 hk2 => by omega) (fun k hk1 hk2 => by omega) (by omega)
  exact ⟨nodes1, p, pivot, by simp [partition, hdiv, hpv, hloop], hperm, hp1, hp2, hframe,
    hq1, hq2⟩

/-! ## The quicksort sorts -/

theorem win_of_noNil (nodes : List HNode) (hnn : NoNil nodes) (lo hi : Int) (h0 : 0 ≤ lo)
    (hhi : hi < nodes.length) : Win nodes lo hi :=
  fun k h1 h2 => freqAt_some nodes hnn k (by omega) (by omega)

theorem sortAux_sorted :
    ∀ (fuel : Nat) (nodes : List HNode) (start stop : Int), NoNil nodes → 0 ≤ start →
      stop < nodes.length →
      stop.toNat * (nodes.length + 1) + (stop - start).toNat + 1 ≤ fuel →
      (∀ a b, 0 ≤ a → a ≤ b → b < start → fq nodes a ≤ fq nodes b) →
      (∀ a b, 0 ≤ a → a < start → start ≤ b → b ≤ stop → fq nodes a ≤ fq nodes b) →
      ∃ nodes1, sortAux fuel nodes start stop = some nodes1 ∧ nodes1.Perm nodes ∧
        Frame 0 stop nodes nodes1 ∧
        ∀ a b, 0 ≤ a → a ≤ b → b ≤ stop → fq nodes1 a ≤ fq nodes1 b := by
  intro fuel
  induction fuel with
  | zero => intro nodes start stop _ _ _ hf; omega
  | succ fuel ih =>
    intro nodes start stop hnn hs0 hstop hf hpre1 hpre2
    by_cases hlt : start < stop
    · obtain ⟨nodes1, p, pivot, hpart, hperm1, hp1, hp2, hframe1, hq1, hq2⟩ :=
        partition_post nodes start stop hs0 hlt hstop (win_of_noNil nodes hnn _ _ hs0 hstop)
      have hlen1 : nodes1.length = nodes.length := hperm1.length_eq
      have hmul : ((p - 1).toNat + 1) * (nodes.length + 1) ≤ stop.toNat * (nodes.length + 1) :=
        Nat.mul_le_mul_right _ (by omega)
      rw [Nat.succ_mul] at hmul
      obtain ⟨nodes2, hsort1, hperm2, hframe2, hsorted2⟩ :=
        ih nodes1 0 (p - 1) (noNil_of_perm hperm1 hnn) (le_refl _) (by omega)
          (by rw [hlen1]; omega) (fun a b h1 h2 h3 => by omega)
          (fun a b h1 h2 h3 h4 => by omega)
      have hlen2 : nodes2.length = nodes.length := hperm2.length_eq.trans hlen1
      have hpre2b : ∀ a b, 0 ≤ a → a < p → p ≤ b → b ≤ stop → fq nodes2 a ≤ fq nodes2 b := by
        intro a b ha0 hap hpb hbs
        obtain ⟨a1, ha1, ha2, hea⟩ := hframe2.2.2 a ha0 (by omega)
        rw [fq_of_index_eq hea, fq_of_index_eq (hframe2.2.1 b (Or.inr (by omega)))]
        by_cases hst : start ≤ a1
        · exact le_trans (hq1 a1 hst (by omega)) (hq2 b hpb hbs)
        · obtain ⟨b1, hb1, hb2, heb⟩ := hframe1.2.2 b (by omega) hbs
          rw [fq_of_index_eq heb, fq_of_index_eq (hframe1.2.1 a1 (Or.inl (by omega)))]
          exact hpre2 a1 b1 ha1 (by omega) hb1 hb2
      obtain ⟨nodes3, hsort2, hperm3, hframe3, hsorted3⟩ :=
        ih nodes2 p stop (noNil_of_perm (hperm2.trans hperm1) hnn) (by omega) (by omega)
          (by rw [hlen2]; omega)
          (fun a b h1 h2 h3 => hsorted2 a b h1 h2 (by omega)) hpre2b
      refine ⟨nodes3, by simp [sortAux, hlt, hpart, hsort1, hsort2],
        hperm3.trans (hperm2.trans hperm1), ?_, hsorted3⟩
      exact ((hframe1.mono hs0 (le_refl _)).trans
        (hframe2.mono (le_refl _) (by omega))).trans hframe3
    · refine ⟨nodes, by simp [sortAux, hlt], List.Perm.refl _, Frame.refl _ _ _, ?_⟩
      intro a b ha hab hb
      by_cases hbs : b < start
      · exact hpre1 a b ha hab hbs
      · by_cases hae : a = b
        · subst hae; exact le_refl _
        · exact hpre2 a b ha (by omega) (by omega) hb

theorem fq_natCast (nodes : List HNode) (i : Nat) (hi : i < nodes.length) :
    fq nodes (i : Int) = HNode.freq nodes[i] := by
  simp [fq, freqAt, index, HNode.freq, List.getElem?_eq_getElem hi]

theorem sort_sorted_of_bounds (nodes : List HNode) (hnn : NoNil nodes) :
    ∃ nodes1, sort nodes 0 ((nodes.length : Int) - 1) = some nodes1 ∧ nodes1.Perm nodes ∧
      SortedByFreq nodes1 := by
  have hfuel : ((nodes.length : Int) - 1).toNat * (nodes.length + 1) +
      ((nodes.length : Int) - 1 - 0).toNat + 1 ≤ sortFuel nodes := by
    have h1 : ((nodes.length : Int) - 1).toNat * (nodes.length + 1) ≤
        nodes.length * (nodes.length + 1) := Nat.mul_le_mul_right _ (by omega)
    have h2 : ((nodes.length : Int) - 1 - 0).toNat ≤ nodes.length := by omega
    unfold sortFuel
    nlinarith
  obtain ⟨nodes1, hsort, hperm, _, hsorted⟩ :=
    sortAux_sorted (sortFuel nodes) nodes 0 ((nodes.length : Int) - 1) hnn (le_refl _)
      (by omega) hfuel (fun a b h1 h2 h3 => by omega) (fun a b h1 h2 h3 h4 => by omega)
  refine ⟨nodes1, hsort, hperm, ?_⟩
  have hlen : nodes1.length = nodes.length := hperm.length_eq
  unfold SortedByFreq
  rw [List.pairwise_iff_getElem]
  intro i j hi hj hij
  have h := hsorted (i : Int) (j : Int) (by omega) (by omega) (by omega)
  rw [fq_natCast nodes1 i hi, fq_natCast nodes1 j hj] at h
  exact h

/-! ## The merge loop, one iteration at a time -/

theorem mergeLoop_succ (fuel : Nat) (nodes : List HNode) :
    mergeLoop (fuel + 1) nodes =
      if nodes.length > 1 then
        match mergeStep nodes with
        | none => none
        | some nodes2 => mergeLoop fuel nodes2
      else some nodes := by
  rw [mergeLoop]
  by_cases h : nodes.length > 1
  · simp only [h, if_true, mergeStep]
    cases index nodes 0 <;> cases index nodes 1 <;> simp only []
    rename_i n0 n1
    cases n0.frequency <;> cases n1.frequency <;> rfl
  · simp only [h, if_false]

theorem mergeStep_cons (n0 n1 : HNode) (rest : List HNode) (hnn : NoNil (n0 :: n1 :: rest)) :
    mergeStep (n0 :: n1 :: rest) =
      sort (HNode.mk 42 (n0.freq + n1.freq) n0 n1 :: rest) 0 ((rest.length + 1 : Nat) - 1 : Int) := by
  have h0 : n0 ≠ HNode.nil := hnn n0 (by simp)
  have h1 : n1 ≠ HNode.nil := hnn n1 (by simp)
  cases n0 with
  | nil => exact absurd rfl h0
  | mk v0 f0 l0 r0 =>
    cases n1 with
    | nil => exact absurd rfl h1
    | mk v1 f1 l1 r1 =>
      simp [mergeStep, index, HNode.frequency, HNode.freq]

theorem mergeStep_spec (n0 n1 : HNode) (rest : List HNode) (hnn : NoNil (n0 :: n1 :: rest)) :
    ∃ nodes2, mergeStep (n0 :: n1 :: rest) = some nodes2 ∧
      nodes2.Perm (HNode.mk 42 (n0.freq + n1.freq) n0 n1 :: rest) ∧ SortedByFreq nodes2 := by
  have hnn1 : NoNil (HNode.mk 42 (n0.freq + n1.freq) n0 n1 :: rest) := by
    intro x hx
    rcases List.mem_cons.mp hx with h | h
    · rw [h]; simp
    · exact hnn x (by simp [h])
  obtain ⟨nodes2, hsort, hperm, hsorted⟩ := sort_sorted_of_bounds _ hnn1
  refine ⟨nodes2, ?_, hperm, hsorted⟩
  rw [mergeStep_cons n0 n1 rest hnn, ← hsort]
  simp

theorem Reach.head {nodes nodes2 out : List HNode} (hlen : nodes.length > 1)
    (hstep : mergeStep nodes = some nodes2) (hr : Reach nodes2 out) : Reach nodes out := by
  induction hr with
  | start => exact Reach.step Reach.start hlen hstep
  | step _ hl2 hs2 ih2 => exact Reach.step ih2 hl2 hs2

theorem mergeLoop_reach :
    ∀ (fuel : Nat) (nodes out : List HNode), mergeLoop fuel nodes = some out →
      Reach nodes out ∧ out.length ≤ 1 := by
  intro fuel
  induction fuel with
  | zero => intro nodes out h; simp [mergeLoop] at h
  | succ fuel ih =>
    intro nodes out h
    rw [mergeLoop_succ] at h
    by_cases hlen : nodes.length > 1
    · simp only [hlen, if_true] at h
      cases hstep : mergeStep nodes with
      | none => simp [hstep] at h
      | some nodes2 =>
        simp only [hstep] at h
        obtain ⟨hr, hl⟩ := ih nodes2 out h
        exact ⟨Reach.head hlen hstep hr, hl⟩
    · simp only [hlen, if_false] at h
      cases h
      exact ⟨Reach.start, by omega⟩

/-! ## Leaves and frequencies along the merge loop -/

theorem wellFormed_ne_nil {t : HNode} (h : t.wellFormed = true) : t ≠ HNode.nil := by
  intro hn; subst hn; simp [HNode.wellFormed] at h

theorem noNil_of_wellFormed {nodes : List HNode} (h : ∀ x ∈ nodes, x.wellFormed = true) :
    NoNil nodes :=
  fun x hx => wellFormed_ne_nil (h x hx)

theorem leaves_internal (v f : Nat) (l r : HNode) (hl : l ≠ HNode.nil) :
    leaves (HNode.mk v f l r) = leaves l ++ leaves r := by
  cases l with
  | nil => exact absurd rfl hl
  | mk _ _ _ _ => simp [leaves]

theorem wellFormed_cases {v f : Nat} {l r : HNode} (h : (HNode.mk v f l r).wellFormed = true) :
    (l = HNode.nil ∧ r = HNode.nil) ∨
      (l.wellFormed = true ∧ r.wellFormed = true ∧ f = l.freq + r.freq) := by
  simpa [HNode.wellFormed, and_assoc] using h

theorem freq_eq_sum_leaves :
    ∀ t : HNode, t.wellFormed = true → t.freq = ((leaves t).map Prod.snd).sum := by
  intro t
  induction t with
  | nil => intro h; simp [HNode.wellFormed] at h
  | mk v f l r ihl ihr =>
    intro h
    rcases wellFormed_cases h with ⟨h1, h2⟩ | ⟨h1, h2, h3⟩
    · subst h1; subst h2; simp [leaves, HNode.freq, HNode.frequency]
    · rw [leaves_internal v f l r (wellFormed_ne_nil h1)]
      simp only [List.map_append, List.sum_append, ← ihl h1, ← ihr h2]
      simp [HNode.freq, HNode.frequency, h3]

theorem forestLeaves_perm {a b : List HNode} (h : a.Perm b) :
    (forestLeaves a).Perm (forestLeaves b) :=
  (h.map leaves).flatten

theorem mergeStep_inv (n0 n1 : HNode) (rest nodes2 : List HNode)
    (hwf : ∀ x ∈ n0 :: n1 :: rest, x.wellFormed = true)
    (hstep : mergeStep (n0 :: n1 :: rest) = some nodes2) :
    nodes2.Perm (HNode.mk 42 (n0.freq + n1.freq) n0 n1 :: rest) ∧ SortedByFreq nodes2 ∧
      (∀ x ∈ nodes2, x.wellFormed = true) ∧
      (forestLeaves nodes2).Perm (forestLeaves (n0 :: n1 :: rest)) := by
  obtain ⟨nodes3, hs, hperm, hsorted⟩ := mergeStep_spec n0 n1 rest (noNil_of_wellFormed hwf)
  rw [hs] at hstep
  cases hstep
  have h0 : n0.wellFormed = true := hwf n0 (by simp)
  have h1 : n1.wellFormed = true := hwf n1 (by simp)
  have hnew : (HNode.mk 42 (n0.freq + n1.freq) n0 n1).wellFormed = true := by
    simp [HNode.wellFormed, h0, h1]
  refine ⟨hperm, hsorted, ?_, ?_⟩
  · intro x hx
    rcases List.mem_cons.mp (hperm.subset hx) with h | h
    · rw [h]; exact hnew
    · exact hwf x (by simp [h])
  · refine (forestLeaves_perm hperm).trans ?_
    simp [forestLeaves, leaves_internal _ _ _ _ (wellFormed_ne_nil h0)]

theorem reach_inv (init : List HNode) (hwf : ∀ x ∈ init, x.wellFormed = true)
    (hne : init ≠ []) (hsorted : SortedByFreq init) :
    ∀ nodes, Reach init nodes →
      (∀ x ∈ nodes, x.wellFormed = true) ∧ (forestLeaves nodes).Perm (forestLeaves init) ∧
        nodes ≠ [] ∧ SortedByFreq nodes := by
  intro nodes hr
  induction hr with
  | start => exact ⟨hwf, List.Perm.refl _, hne, hsorted⟩
  | @step nodes1 nodes2 _ hlen hstep ih =>
    obtain ⟨ih1, ih2, _, _⟩ := ih
    match nodes1, hlen, hstep, ih1, ih2 with
    | [], hlen, _, _, _ => simp at hlen
    | [_], hlen, _, _, _ => simp at hlen
    | n0 :: n1 :: rest, _, hstep, ih1, ih2 =>
      obtain ⟨hperm, hs, hw, hl⟩ := mergeStep_inv n0 n1 rest nodes2 ih1 hstep
      refine ⟨hw, hl.trans ih2, ?_, hs⟩
      intro h; subst h; simpa using hperm.length_eq

/-! ## The frequency map holds the number of occurrences of every byte -/

theorem lookup_cons_self (k c : Nat) (rest : List (Nat × Nat)) :
    List.lookup k ((k, c) :: rest) = some c := by
  simp [List.lookup]

theorem lookup_cons_ne {k k1 : Nat} (c : Nat) (rest : List (Nat × Nat)) (h : k ≠ k1) :
    List.lookup k ((k1, c) :: rest) = List.lookup k rest := by
  have hb : (k == k1) = false := by simpa using h
  simp [List.lookup, hb]

theorem lookup_incr (hash : List (Nat × Nat)) (b k : Nat) :
    List.lookup k (incr hash b) =
      if k = b then some ((List.lookup b hash).getD 0 + 1) else List.lookup k hash := by
  induction hash with
  | nil =>
    by_cases h : k = b
    · subst h; simp [incr, lookup_cons_self]
    · simp [incr, lookup_cons_ne _ _ h, h]
  | cons e rest ih =>
    obtain ⟨k1, c1⟩ := e
    by_cases h1 : k1 = b
    · subst h1
      by_cases h : k = k1
      · subst h; simp [incr, lookup_cons_self]
      · simp [incr, lookup_cons_ne _ _ h, h]
    · have hb : b ≠ k1 := fun h2 => h1 h2.symm
      by_cases h : k = b
      · subst h
        simp [incr, h1, lookup_cons_ne _ _ hb, ih]
      · by_cases h2 : k = k1
        · subst h2; simp [incr, h1, h, lookup_cons_self]
        · simp [incr, h1, h, lookup_cons_ne _ _ h2, ih]

theorem lookup_countLine (line : List Nat) :
    ∀ (hash : List (Nat × Nat)) (k : Nat),
      (List.lookup k (countLine hash line)).getD 0 =
        (List.lookup k hash).getD 0 + (line.map (fun l => l % 256)).count k := by
  induction line with
  | nil => intro hash k; simp [countLine]
  | cons l rest ih =>
    intro hash k
    have h := ih (incr hash (l % 256)) k
    simp only [countLine, List.foldl_cons] at h ⊢
    rw [h, lookup_incr]
    by_cases hk : k = l % 256
    · subst hk; simp; omega
    · have hk2 : ¬ l % 256 = k := fun h2 => hk h2.symm
      simp [hk, List.count_cons, hk2]

theorem keys_incr (hash : List (Nat × Nat)) (b : Nat) :
    (incr hash b).map Prod.fst =
      if b ∈ hash.map Prod.fst then hash.map Prod.fst else hash.map Prod.fst ++ [b] := by
  induction hash with
  | nil => simp [incr]
  | cons e rest ih =>
    obtain ⟨k1, c1⟩ := e
    by_cases h1 : k1 = b
    · subst h1; simp [incr]
    · have h2 : ¬ b = k1 := fun h => h1 h.symm
      simp only [incr, h1, if_false, List.map_cons, ih, List.mem_cons, h2, false_or]
      split_ifs <;> simp

theorem nodup_keys_incr (hash : List (Nat × Nat)) (b : Nat)
    (h : (hash.map Prod.fst).Nodup) : ((incr hash b).map Prod.fst).Nodup := by
  rw [keys_incr]
  split_ifs with hb
  · exact h
  · exact List.Nodup.append h (by simp) (by simpa using hb)

theorem nodup_keys_countLine (line : List Nat) :
    ∀ hash : List (Nat × Nat), (hash.map Prod.fst).Nodup →
      ((countLine hash line).map Prod.fst).Nodup := by
  induction line with
  | nil => intro hash h; simpa [countLine] using h
  | cons l rest ih =>
    intro hash h
    have := ih (incr hash (l % 256)) (nodup_keys_incr hash _ h)
    simpa [countLine] using this

theorem nodup_keys_countLines (lines : List (List Nat)) :
    ((countLines lines).map Prod.fst).Nodup := by
  rw [countLines_eq]
  exact nodup_keys_countLine _ [] (by simp)

theorem sum_incr (hash : List (Nat × Nat)) (b : Nat) :
    ((incr hash b).map Prod.snd).sum = (hash.map Prod.snd).sum + 1 := by
  induction hash with
  | nil => simp [incr]
  | cons e rest ih =>
    obtain ⟨k1, c1⟩ := e
    by_cases h1 : k1 = b
    · simp [incr, h1]; omega
    · simp [incr, h1, ih]; omega

theorem sum_countLine (line : List Nat) :
    ∀ hash : List (Nat × Nat),
      ((countLine hash line).map Prod.snd).sum = (hash.map Prod.snd).sum + line.length := by
  induction line with
  | nil => intro hash; simp [countLine]
  | cons l rest ih =>
    intro hash
    have h := ih (incr hash (l % 256))
    simp only [countLine, List.foldl_cons] at h ⊢
    rw [h, sum_incr]; simp; omega

theorem sum_countLines (lines : List (List Nat)) :
    ((countLines lines).map Prod.snd).sum = (runes lines).length := by
  rw [countLines_eq, sum_countLine]; simp

theorem lookup_of_mem (hash : List (Nat × Nat)) (h : (hash.map Prod.fst).Nodup) (k c : Nat)
    (hm : (k, c) ∈ hash) : List.lookup k hash = some c := by
  induction hash with
  | nil => simp at hm
  | cons e rest ih =>
    obtain ⟨k1, c1⟩ := e
    simp only [List.map_cons, List.nodup_cons] at h
    rcases List.mem_cons.mp hm with h1 | h1
    · cases h1; exact lookup_cons_self _ _ _
    · have hne : k ≠ k1 := by
        intro h2; subst h2
        exact h.1 (List.mem_map.mpr ⟨(k, c), h1, rfl⟩)
      rw [lookup_cons_ne _ _ hne]; exact ih h.2 h1

theorem count_of_mem_countLines (lines : List (List Nat)) (k c : Nat)
    (hm : (k, c) ∈ countLines lines) : c = (corpusBytes lines).count k := by
  have h1 := lookup_of_mem _ (nodup_keys_countLines lines) k c hm
  have h2 := lookup_countLine (runes lines) [] k
  rw [← countLines_eq, h1] at h2
  simpa [corpusBytes] using h2

theorem mem_countLines_iff (lines : List (List Nat)) (k c : Nat) :
    (k, c) ∈ countLines lines ↔ k ∈ corpusBytes lines ∧ c = (corpusBytes lines).count k := by
  constructor
  · intro hm
    refine ⟨?_, count_of_mem_countLines lines k c hm⟩
    have hk : k ∈ (countLines lines).map Prod.fst := List.mem_map.mpr ⟨(k, c), hm, rfl⟩
    obtain ⟨l, hl, hlk⟩ := (mem_keys_countLines lines k).mp hk
    exact List.mem_map.mpr ⟨l, hl, hlk⟩
  · rintro ⟨hk, hc⟩
    obtain ⟨l, hl, hlk⟩ := List.mem_map.mp hk
    have hk2 : k ∈ (countLines lines).map Prod.fst :=
      (mem_keys_countLines lines k).mpr ⟨l, hl, hlk⟩
    obtain ⟨⟨k1, c1⟩, hm, hfst⟩ := List.mem_map.mp hk2
    simp only at hfst
    subst hfst
    rw [hc, ← count_of_mem_countLines lines k1 c1 hm]
    exact hm

/-! ## The structure of the tree `New` returns -/

theorem forestLeaves_leafNodes (order : List (Nat × Nat)) :
    forestLeaves (leafNodes order) = order := by
  induction order with
  | nil => rfl
  | cons e rest ih =>
    simp only [forestLeaves, leafNodes, List.map_cons, List.flatten_cons] at ih ⊢
    rw [ih]; simp [leaves]

theorem wellFormed_leafNodes (order : List (Nat × Nat)) :
    ∀ x ∈ leafNodes order, x.wellFormed = true := by
  intro x hx
  simp only [leafNodes, List.mem_map] at hx
  obtain ⟨e, _, he⟩ := hx
  subst he; simp [HNode.wellFormed]

theorem New_struct (lines : List (List Nat)) (order : List (Nat × Nat))
    (hperm : order.Perm (countLines lines)) (hne : runes lines ≠ []) :
    ∃ init root, sort (leafNodes order) 0 (((leafNodes order).length : Int) - 1) = some init ∧
      init.Perm (leafNodes order) ∧ SortedByFreq init ∧ Reach init [root] ∧
      New lines order = some (some { reader := [], root := root }) ∧
      root.wellFormed = true ∧ (leaves root).Perm (countLines lines) := by
  have hhash : countLines lines ≠ [] := fun h => hne ((countLines_eq_nil_iff lines).mp h)
  have hlen0 : 1 ≤ (countLines lines).length := by
    cases hc : countLines lines with
    | nil => exact absurd hc hhash
    | cons e rest => simp
  have hlenN : (leafNodes order).length = (countLines lines).length := by
    simp [leafNodes, hperm.length_eq]
  obtain ⟨init, hsort, hperm1, hsorted⟩ :=
    sort_sorted_of_bounds (leafNodes order) (noNil_of_full (full_leafNodes order))
  have hlen1 : init.length = (countLines lines).length := hperm1.length_eq.trans hlenN
  obtain ⟨root, hloop, _, _, _⟩ :=
    mergeLoop_spec (init.length + 1) init
      (fun x hx => full_leafNodes order x (hperm1.subset hx)) (by omega) (by omega)
  have hreach : Reach init [root] := (mergeLoop_reach _ _ _ hloop).1
  have hwf : ∀ x ∈ init, x.wellFormed = true :=
    fun x hx => wellFormed_leafNodes order x (hperm1.subset hx)
  have hinit : init ≠ [] := by
    intro h; rw [h] at hlen1; simp at hlen1; omega
  obtain ⟨hw, hl, _, _⟩ := reach_inv init hwf hinit hsorted [root] hreach
  refine ⟨init, root, hsort, hperm1, hsorted, hreach, ?_, hw root (by simp), ?_⟩
  · have hnot : ¬ (countLines lines).length < 1 := by omega
    have hidx : index [root] 0 = some root := by simp [index]
    simp [New, HTree.generateHuffmanTree, hnot, hsort, hloop, hidx]
  · have h1 : (forestLeaves [root]).Perm (forestLeaves (leafNodes order)) :=
      hl.trans (forestLeaves_perm hperm1)
    rw [forestLeaves_leafNodes] at h1
    have h2 : forestLeaves [root] = leaves root := by simp [forestLeaves]
    rw [h2] at h1
    exact h1.trans hperm

theorem New_struct_of_eq (lines : List (List Nat)) (order : List (Nat × Nat)) (h : HTree)
    (hperm : order.Perm (countLines lines)) (hnew : New lines order = some (some h)) :
    ∃ init, sort (leafNodes order) 0 (((leafNodes order).length : Int) - 1) = some init ∧
      init.Perm (leafNodes order) ∧ SortedByFreq init ∧ Reach init [h.root] ∧
      h.root.wellFormed = true ∧ (leaves h.root).Perm (countLines lines) := by
  by_cases hr : runes lines = []
  · rw [(New_of_empty lines order hr).2] at hnew
    simp at hnew
  · obtain ⟨init, root, h1, h2, h3, h4, h5, h6, h7⟩ := New_struct lines order hperm hr
    rw [h5] at hnew
    have hh : h = { reader := [], root := root } := by
      injection hnew with e1; injection e1 with e2; exact e2.symm
    subst hh
    exact ⟨init, h1, h2, h3, h4, h6, h7⟩

/-! ## Sorted slices with pairwise distinct frequencies -/

theorem eq_of_map_eq_of_injOn {α β : Type} (f : α → β) :
    ∀ l1 l2 : List α, l1.map f = l2.map f →
      (∀ x ∈ l1, ∀ y ∈ l2, f x = f y → x = y) → l1 = l2 := by
  intro l1
  induction l1 with
  | nil => intro l2 h _; simpa using h.symm
  | cons a t ih =>
    intro l2 h hinj
    cases l2 with
    | nil => simp at h
    | cons b t2 =>
      simp only [List.map_cons, List.cons.injEq] at h
      have hab : a = b := hinj a (by simp) b (by simp) h.1
      subst hab
      rw [ih t2 h.2 (fun x hx y hy => hinj x (by simp [hx]) y (by simp [hy]))]

theorem eq_of_sorted_perm {l1 l2 : List HNode} (hperm : l1.Perm l2) (h1 : SortedByFreq l1)
    (h2 : SortedByFreq l2) (hnd : (l1.map HNode.freq).Nodup) : l1 = l2 := by
  have hs1 : List.Sorted (· ≤ ·) (l1.map HNode.freq) := List.pairwise_map.mpr h1
  have hs2 : List.Sorted (· ≤ ·) (l2.map HNode.freq) := List.pairwise_map.mpr h2
  have hmap : l1.map HNode.freq = l2.map HNode.freq :=
    List.eq_of_perm_of_sorted (hperm.map _) hs1 hs2
  apply eq_of_map_eq_of_injOn HNode.freq l1 l2 hmap
  intro x hx y hy hxy
  exact List.inj_on_of_nodup_map hnd hx (hperm.symm.subset hy) hxy

theorem freq_leafNodes (order : List (Nat × Nat)) :
    (leafNodes order).map HNode.freq = order.map Prod.snd := by
  simp [leafNodes, HNode.freq, HNode.frequency, Function.comp_def]

theorem New_eq_of_sort_eq (lines : List (List Nat)) (order1 order2 : List (Nat × Nat))
    (h : sort (leafNodes order1) 0 (((leafNodes order1).length : Int) - 1) =
      sort (leafNodes order2) 0 (((leafNodes order2).length : Int) - 1)) :
    New lines order1 = New lines order2 := by
  simp only [New, HTree.generateHuffmanTree, h]

theorem sort_leafNodes_unique (order1 order2 : List (Nat × Nat)) (hperm : order1.Perm order2)
    (hnd : (order2.map Prod.snd).Nodup) :
    sort (leafNodes order1) 0 (((leafNodes order1).length : Int) - 1) =
      sort (leafNodes order2) 0 (((leafNodes order2).length : Int) - 1) := by
  obtain ⟨init1, hs1, hp1, hsorted1⟩ :=
    sort_sorted_of_bounds (leafNodes order1) (noNil_of_full (full_leafNodes order1))
  obtain ⟨init2, hs2, hp2, hsorted2⟩ :=
    sort_sorted_of_bounds (leafNodes order2) (noNil_of_full (full_leafNodes order2))
  have hperm12 : init1.Perm init2 :=
    (hp1.trans (hperm.map _)).trans hp2.symm
  have hnd1 : (init1.map HNode.freq).Nodup := by
    have hp : (init1.map HNode.freq).Perm (order2.map Prod.snd) := by
      rw [← freq_leafNodes]
      exact (hperm12.trans hp2).map _
    exact hp.nodup_iff.mpr hnd
  rw [hs1, hs2, eq_of_sorted_perm hperm12 hsorted1 hsorted2 hnd1]

theorem sublist_pair_of_mem {α : Type} (x y : α) (hne : x ≠ y) :
    ∀ l : List α, x ∈ l → y ∈ l → List.Sublist [x, y] l ∨ List.Sublist [y, x] l := by
  intro l
  induction l with
  | nil => intro hx; simp at hx
  | cons a t ih =>
    intro hx hy
    rcases List.mem_cons.mp hx with h1 | h1
    · rcases List.mem_cons.mp hy with h2 | h2
      · exact absurd (h1.trans h2.symm) hne
      · left; subst h1
        exact List.Sublist.cons₂ _ (List.singleton_sublist.mpr h2)
    · rcases List.mem_cons.mp hy with h2 | h2
      · right; subst h2
        exact List.Sublist.cons₂ _ (List.singleton_sublist.mpr h1)
      · rcases ih h1 h2 with h | h
        · exact Or.inl (List.Sublist.cons _ h)
        · exact Or.inr (List.Sublist.cons _ h)

theorem encode_internal (f : Nat) (l r : HNode) (hl : l.full = true) (hr : r.full = true)
    (marker : Nat) :
    HNode.encode (HNode.mk 42 f l r) marker [] = if marker = 42 then [] else [48, 49] := by
  have h1 : l ≠ HNode.nil := full_ne_nil hl
  have h2 : r ≠ HNode.nil := full_ne_nil hr
  by_cases hm : marker = 42
  · subst hm; simp [HNode.encode]
  · have hm2 : ¬ 42 = marker := fun h => hm h.symm
    simp [HNode.encode, hm, hm2, h1, h2]

theorem encodeLines_internal (f : Nat) (l r : HNode) (hl : l.full = true) (hr : r.full = true) :
    ∀ lines : List (List Nat), (∀ c ∈ runes lines, c % 256 ≠ 42) →
      encodeLines (HNode.mk 42 f l r) lines =
        (List.replicate (runes lines).length [48, 49]).flatten := by
  have hline : ∀ line : List Nat, (∀ c ∈ line, c % 256 ≠ 42) →
      (line.map (fun c => HNode.encode (HNode.mk 42 f l r) (c % 256) [])).flatten =
        (List.replicate line.length [48, 49]).flatten := by
    intro line
    induction line with
    | nil => intro _; rfl
    | cons c rest ih =>
      intro h
      have hc : c % 256 ≠ 42 := h c (by simp)
      have ih2 := ih (fun x hx => h x (by simp [hx]))
      simp only [List.map_cons, List.flatten_cons, List.length_cons, List.replicate_succ]
      rw [ih2, encode_internal f l r hl hr]
      simp [hc]
  intro lines
  induction lines with
  | nil => intro _; rfl
  | cons line rest ih =>
    intro h
    have h1 : ∀ c ∈ line, c % 256 ≠ 42 := fun c hc => h c (by simp [runes, hc])
    have h2 : ∀ c ∈ runes rest, c % 256 ≠ 42 := fun c hc => by
      apply h c
      simp only [runes, List.flatten_cons, List.mem_append]
      exact Or.inr hc
    have ih2 := ih h2
    simp only [encodeLines, runes, List.map_cons, List.flatten_cons, List.length_append,
      List.replicate_add, List.flatten_append] at ih2 ⊢
    rw [hline line h1, ih2]

theorem leaves_spec (lines : List (List Nat)) (order : List (Nat × Nat)) (h : HTree)
    (hperm : order.Perm (countLines lines)) (hnew : New lines order = some (some h)) :
    ((leaves h.root).map Prod.fst).Nodup ∧
      ∀ v f, (v, f) ∈ leaves h.root ↔
        v ∈ corpusBytes lines ∧ f = (corpusBytes lines).count v := by
  obtain ⟨init, _, _, _, _, _, hl⟩ := New_struct_of_eq lines order h hperm hnew
  constructor
  · exact (hl.map Prod.fst).nodup_iff.mpr (nodup_keys_countLines lines)
  · intro v f
    rw [hl.mem_iff]
    exact mem_countLines_iff lines v f

theorem corpusBytes_single (corpus : List Nat) (hbyte : ∀ c ∈ corpus, c < 128) :
    corpusBytes [corpus] = corpus := by
  have h : ∀ c ∈ corpus, c % 256 = id c := fun c hc =>
    Nat.mod_eq_of_lt (lt_trans (hbyte c hc) (by decide))
  simp only [corpusBytes, runes, List.flatten_cons, List.flatten_nil, List.append_nil]
  rw [List.map_congr_left h, List.map_id]

theorem reach_nil : ∀ ns : List HNode, Reach [] ns → ns = [] := by
  intro ns hns
  induction hns with
  | start => rfl
  | step _ hl2 _ ih => subst ih; simp at hl2

/-! ## Depth assignments: the two smallest weights can be merged at the bottom -/

theorem kraftSum_eq_of_depths (N : Nat) (s t : Multiset (Nat × Nat))
    (h : s.map Prod.snd = t.map Prod.snd) : kraftSum N s = kraftSum N t := by
  have hs : kraftSum N s = ((s.map Prod.snd).map (fun d => 2 ^ (N - d))).sum := by
    simp [kraftSum, Multiset.map_map, Function.comp_def]
  have ht : kraftSum N t = ((t.map Prod.snd).map (fun d => 2 ^ (N - d))).sum := by
    simp [kraftSum, Multiset.map_map, Function.comp_def]
  rw [hs, ht, h]

theorem exchange_cost (a x da D : Nat) (hax : a ≤ x) (hd : da ≤ D) :
    a * D + x * da ≤ a * da + x * D := by
  obtain ⟨e, rfl⟩ := Nat.exists_eq_add_of_le hax
  obtain ⟨g, rfl⟩ := Nat.exists_eq_add_of_le hd
  nlinarith [Nat.zero_le (e * g)]

theorem exchange (s : Multiset (Nat × Nat)) (a D : Nat) (ha : a ∈ s.map Prod.fst)
    (hD : D ∈ s.map Prod.snd) (hmax : ∀ p ∈ s, p.2 ≤ D) (hmin : ∀ p ∈ s, a ≤ p.1) :
    ∃ r, codeCost ((a, D) ::ₘ r) ≤ codeCost s ∧
      ((a, D) ::ₘ r).map Prod.snd = s.map Prod.snd ∧
      ((a, D) ::ₘ r).map Prod.fst = s.map Prod.fst := by
  obtain ⟨⟨a1, da⟩, hmem, ha1⟩ := Multiset.mem_map.mp ha
  simp only at ha1; subst ha1
  obtain ⟨t, rfl⟩ := Multiset.exists_cons_of_mem hmem
  by_cases hda : da = D
  · subst hda
    exact ⟨t, le_refl _, rfl, rfl⟩
  · obtain ⟨⟨x, D1⟩, hmemx, hx1⟩ := Multiset.mem_map.mp hD
    simp only at hx1; subst hx1
    have hxt : (x, D1) ∈ t := by
      rcases Multiset.mem_cons.mp hmemx with h | h
      · exact absurd (congrArg Prod.snd h).symm hda
      · exact h
    obtain ⟨u, rfl⟩ := Multiset.exists_cons_of_mem hxt
    refine ⟨(x, da) ::ₘ u, ?_, ?_, ?_⟩
    · have h1 : a1 ≤ x := hmin (x, D1) hmemx
      have h2 : da ≤ D1 := hmax (a1, da) hmem
      have h3 := exchange_cost a1 x da D1 h1 h2
      simp only [codeCost, Multiset.map_cons, Multiset.sum_cons]
      omega
    · simp only [Multiset.map_cons]
      rw [Multiset.cons_swap]
    · simp only [Multiset.map_cons]

theorem pow_dvd_kraftSum (N k : Nat) (r : Multiset (Nat × Nat))
    (h : ∀ p ∈ r, k ≤ N - p.2) : 2 ^ k ∣ kraftSum N r := by
  unfold kraftSum
  apply Multiset.dvd_sum
  intro x hx
  obtain ⟨p, hp, rfl⟩ := Multiset.mem_map.mp hx
  exact pow_dvd_pow 2 (h p hp)

theorem exists_max_depth (s : Multiset (Nat × Nat)) (hne : s ≠ 0) :
    ∃ p ∈ s, ∀ q ∈ s, q.2 ≤ p.2 := by
  have hn : s.toFinset.Nonempty := by
    obtain ⟨p, hp⟩ := Multiset.exists_mem_of_ne_zero hne
    exact ⟨p, Multiset.mem_toFinset.mpr hp⟩
  obtain ⟨p, hp, hmax⟩ := Finset.exists_max_image s.toFinset (fun q => q.2) hn
  exact ⟨p, Multiset.mem_toFinset.mp hp, fun q hq => hmax q (Multiset.mem_toFinset.mpr hq)⟩

theorem two_at_max_depth (N : Nat) (s : Multiset (Nat × Nat)) (hf : Feasible N s)
    (hcard : 2 ≤ Multiset.card s) :
    ∃ D x y r, s = (x, D) ::ₘ (y, D) ::ₘ r ∧ 1 ≤ D ∧ D ≤ N ∧ ∀ p ∈ s, p.2 ≤ D := by
  have hne : s ≠ 0 := by
    intro h; subst h; simp at hcard
  obtain ⟨⟨x, D⟩, hmem, hmax⟩ := exists_max_depth s hne
  have hDN : D ≤ N := hf.1 (x, D) hmem
  have hD1 : 1 ≤ D := by
    by_contra hD
    have hD0 : D = 0 := by omega
    subst hD0
    have hlow : Multiset.card s • 2 ^ N ≤ kraftSum N s := by
      unfold kraftSum
      have h1 : Multiset.card (s.map (fun p => 2 ^ (N - p.2))) • 2 ^ N ≤
          (s.map (fun p => 2 ^ (N - p.2))).sum := by
        apply Multiset.card_nsmul_le_sum
        intro y hy
        obtain ⟨p, hp, rfl⟩ := Multiset.mem_map.mp hy
        have h0 : p.2 = 0 := by have := hmax p hp; simpa using this
        simp [h0]
      simpa using h1
    rw [hf.2, smul_eq_mul] at hlow
    have hpos : 0 < 2 ^ N := by positivity
    nlinarith
  obtain ⟨r1, rfl⟩ := Multiset.exists_cons_of_mem hmem
  by_cases hex : ∃ p ∈ r1, p.2 = D
  · obtain ⟨⟨y, D2⟩, hy, hD2⟩ := hex
    simp only at hD2; subst hD2
    obtain ⟨r, rfl⟩ := Multiset.exists_cons_of_mem hy
    exact ⟨D2, x, y, r, rfl, hD1, hDN, hmax⟩
  · exfalso
    have hall : ∀ p ∈ r1, N - D + 1 ≤ N - p.2 := by
      intro p hp
      have h1 : p.2 ≤ D := hmax p (Multiset.mem_cons_of_mem hp)
      have h2 : p.2 ≠ D := fun h => hex ⟨p, hp, h⟩
      omega
    have hdvd := pow_dvd_kraftSum N (N - D + 1) r1 hall
    have hk := hf.2
    simp only [kraftSum, Multiset.map_cons, Multiset.sum_cons] at hk
    have hdvd2 : 2 ^ (N - D + 1) ∣ 2 ^ N := pow_dvd_pow 2 (by omega)
    unfold kraftSum at hdvd
    rw [← hk] at hdvd2
    have hdvd3 : 2 ^ (N - D + 1) ∣ 2 ^ (N - D) := (Nat.dvd_add_left hdvd).mp hdvd2
    have hle := Nat.le_of_dvd (by positivity) hdvd3
    rw [pow_succ] at hle
    have hpos : 0 < 2 ^ (N - D) := by positivity
    omega

theorem merge_two_smallest (N : Nat) (s : Multiset (Nat × Nat)) (a b : Nat)
    (M : Multiset Nat) (hf : Feasible N s) (hw : s.map Prod.fst = a ::ₘ b ::ₘ M)
    (hab : a ≤ b) (hbM : ∀ w ∈ M, b ≤ w) :
    ∃ s1, Feasible N s1 ∧ s1.map Prod.fst = (a + b) ::ₘ M ∧
      codeCost s1 + a + b ≤ codeCost s := by
  have hcard : 2 ≤ Multiset.card s := by
    have h := congrArg Multiset.card hw
    simp only [Multiset.card_map, Multiset.card_cons] at h
    omega
  obtain ⟨D, x, y, r0, hs, hD1, hDN, hmax⟩ := two_at_max_depth N s hf hcard
  have hmin : ∀ p ∈ s, a ≤ p.1 := by
    intro p hp
    have h1 : p.1 ∈ s.map Prod.fst := Multiset.mem_map_of_mem _ hp
    rw [hw] at h1
    rcases Multiset.mem_cons.mp h1 with h | h
    · omega
    · rcases Multiset.mem_cons.mp h with h | h
      · omega
      · exact le_trans hab (hbM _ h)
  have haS : a ∈ s.map Prod.fst := by rw [hw]; simp
  have hDS : D ∈ s.map Prod.snd := by rw [hs]; simp
  obtain ⟨r, hc1, hd1, hw1⟩ := exchange s a D haS hDS hmax hmin
  have hdr : r.map Prod.snd = D ::ₘ r0.map Prod.snd := by
    rw [hs] at hd1
    simp only [Multiset.map_cons] at hd1
    exact (Multiset.cons_inj_right D).mp hd1
  have hwr : r.map Prod.fst = b ::ₘ M := by
    rw [hw] at hw1
    simp only [Multiset.map_cons] at hw1
    exact (Multiset.cons_inj_right a).mp hw1
  have hmaxr : ∀ p ∈ r, p.2 ≤ D := by
    intro p hp
    have h1 : p.2 ∈ ((a, D) ::ₘ r).map Prod.snd :=
      Multiset.mem_map_of_mem _ (Multiset.mem_cons_of_mem hp)
    rw [hd1] at h1
    obtain ⟨q, hq, hq2⟩ := Multiset.mem_map.mp h1
    rw [← hq2]; exact hmax q hq
  have hminr : ∀ p ∈ r, b ≤ p.1 := by
    intro p hp
    have h1 : p.1 ∈ r.map Prod.fst := Multiset.mem_map_of_mem _ hp
    rw [hwr] at h1
    rcases Multiset.mem_cons.mp h1 with h | h
    · omega
    · exact hbM _ h
  obtain ⟨r2, hc2, hd2, hw2⟩ :=
    exchange r b D (by rw [hwr]; simp) (by rw [hdr]; simp) hmaxr hminr
  have hwr2 : r2.map Prod.fst = M := by
    rw [hwr] at hw2
    simp only [Multiset.map_cons] at hw2
    exact (Multiset.cons_inj_right b).mp hw2
  have hpow : 2 ^ (N - (D - 1)) = 2 ^ (N - D) + 2 ^ (N - D) := by
    have : N - (D - 1) = (N - D) + 1 := by omega
    rw [this, pow_succ]; omega
  refine ⟨(a + b, D - 1) ::ₘ r2, ⟨?_, ?_⟩, ?_, ?_⟩
  · intro p hp
    rcases Multiset.mem_cons.mp hp with h | h
    · rw [h]; simp only; omega
    · have h1 : p.2 ∈ ((b, D) ::ₘ r2).map Prod.snd :=
        Multiset.mem_map_of_mem _ (Multiset.mem_cons_of_mem h)
      rw [hd2] at h1
      obtain ⟨q, hq, hq2⟩ := Multiset.mem_map.mp h1
      rw [← hq2]; exact le_trans (hmaxr q hq) hDN
  · have hk1 : kraftSum N s = kraftSum N ((a, D) ::ₘ r) :=
      (kraftSum_eq_of_depths N _ _ hd1).symm
    have hk2 : kraftSum N r = kraftSum N ((b, D) ::ₘ r2) :=
      (kraftSum_eq_of_depths N _ _ hd2).symm
    have hk := hf.2
    rw [hk1] at hk
    simp only [kraftSum, Multiset.map_cons, Multiset.sum_cons] at hk hk2 ⊢
    rw [hk2] at hk
    rw [hpow]; omega
  · simp only [Multiset.map_cons, hwr2]
  · simp only [codeCost, Multiset.map_cons, Multiset.sum_cons] at hc1 hc2 ⊢
    have hD : (a + b) * (D - 1) + a + b = a * D + b * D := by
      obtain ⟨k, rfl⟩ : ∃ k, D = k + 1 := ⟨D - 1, by omega⟩
      simp only [Nat.add_sub_cancel]; ring
    omega

/-! ## The leaves of a tree with their depths -/

theorem leafDepths_internal (v f : Nat) (l r : HNode) (d : Nat) (hl : l ≠ HNode.nil) :
    leafDepths (HNode.mk v f l r) d = leafDepths l (d + 1) ++ leafDepths r (d + 1) := by
  cases l with
  | nil => exact absurd rfl hl
  | mk _ _ _ _ => simp [leafDepths]

theorem full_of_wellFormed : ∀ t : HNode, t.wellFormed = true → t.full = true := by
  intro t
  induction t with
  | nil => intro h; simp [HNode.wellFormed] at h
  | mk v f l r ihl ihr =>
    intro h
    rcases wellFormed_cases h with ⟨h1, h2⟩ | ⟨h1, h2, _⟩
    · subst h1; subst h2; simp [HNode.full]
    · simp [HNode.full, ihl h1, ihr h2]

theorem leafDepths_ge : ∀ (t : HNode) (d : Nat), t.full = true →
    leafDepths t d ≠ [] ∧ ∀ p ∈ leafDepths t d, d ≤ p.2 := by
  intro t
  induction t with
  | nil => intro d h; simp [HNode.full] at h
  | mk v f l r ihl ihr =>
    intro d h
    rcases full_cases h with ⟨h1, h2⟩ | ⟨h1, h2⟩
    · subst h1; subst h2; simp [leafDepths]
    · rw [leafDepths_internal v f l r d (full_ne_nil h1)]
      obtain ⟨hl1, hl2⟩ := ihl (d + 1) h1
      obtain ⟨_, hr2⟩ := ihr (d + 1) h2
      refine ⟨by simp [hl1], ?_⟩
      intro p hp
      rcases List.mem_append.mp hp with hp | hp
      · have := hl2 p hp; omega
      · have := hr2 p hp; omega

theorem leafDepths_kraft : ∀ (t : HNode) (d N : Nat), t.full = true →
    (∀ p ∈ leafDepths t d, p.2 ≤ N) →
    ((leafDepths t d).map (fun p => 2 ^ (N - p.2))).sum = 2 ^ (N - d) := by
  intro t
  induction t with
  | nil => intro d N h; simp [HNode.full] at h
  | mk v f l r ihl ihr =>
    intro d N h hN
    rcases full_cases h with ⟨h1, h2⟩ | ⟨h1, h2⟩
    · subst h1; subst h2; simp [leafDepths]
    · rw [leafDepths_internal v f l r d (full_ne_nil h1)] at hN ⊢
      have hl := ihl (d + 1) N h1 (fun p hp => hN p (List.mem_append.mpr (Or.inl hp)))
      have hr := ihr (d + 1) N h2 (fun p hp => hN p (List.mem_append.mpr (Or.inr hp)))
      obtain ⟨hne, hge⟩ := leafDepths_ge l (d + 1) h1
      obtain ⟨p, hp⟩ := List.exists_mem_of_ne_nil _ hne
      have h3 : d + 1 ≤ N :=
        le_trans (hge p hp) (hN p (List.mem_append.mpr (Or.inl hp)))
      rw [List.map_append, List.sum_append, hl, hr]
      have : N - d = (N - (d + 1)) + 1 := by omega
      rw [this, pow_succ]; omega

theorem leafDepths_weights : ∀ (t : HNode) (d : Nat), t.full = true →
    (leafDepths t d).map Prod.fst = (leaves t).map Prod.snd := by
  intro t
  induction t with
  | nil => intro d h; simp [HNode.full] at h
  | mk v f l r ihl ihr =>
    intro d h
    rcases full_cases h with ⟨h1, h2⟩ | ⟨h1, h2⟩
    · subst h1; subst h2; simp [leafDepths, leaves]
    · rw [leafDepths_internal v f l r d (full_ne_nil h1),
        leaves_internal v f l r (full_ne_nil h1), List.map_append, List.map_append,
        ihl (d + 1) h1, ihr (d + 1) h2]

theorem leafDepths_shift : ∀ (t : HNode) (d : Nat), t.full = true →
    ((leafDepths t (d + 1)).map (fun p => p.1 * p.2)).sum =
      ((leafDepths t d).map (fun p => p.1 * p.2)).sum + ((leaves t).map Prod.snd).sum := by
  intro t
  induction t with
  | nil => intro d h; simp [HNode.full] at h
  | mk v f l r ihl ihr =>
    intro d h
    rcases full_cases h with ⟨h1, h2⟩ | ⟨h1, h2⟩
    · subst h1; subst h2; simp [leafDepths, leaves]; ring
    · rw [leafDepths_internal v f l r (d + 1) (full_ne_nil h1),
        leafDepths_internal v f l r d (full_ne_nil h1),
        leaves_internal v f l r (full_ne_nil h1)]
      simp only [List.map_append, List.sum_append]
      rw [ihl (d + 1) h1, ihr (d + 1) h2]
      omega

theorem wpl_merge (f : Nat) (n0 n1 : HNode) (h0 : n0.wellFormed = true)
    (h1 : n1.wellFormed = true) :
    wpl (HNode.mk 42 f n0 n1) = wpl n0 + wpl n1 + n0.freq + n1.freq := by
  unfold wpl
  rw [leafDepths_internal 42 f n0 n1 0 (wellFormed_ne_nil h0), List.map_append,
    List.sum_append, leafDepths_shift n0 0 (full_of_wellFormed n0 h0),
    leafDepths_shift n1 0 (full_of_wellFormed n1 h1), freq_eq_sum_leaves n0 h0,
    freq_eq_sum_leaves n1 h1]
  omega

theorem feasible_of_full (t : HNode) (h : t.full = true) :
    Feasible ((leafDepths t 0).map Prod.snd).sum (↑(leafDepths t 0) : Multiset (Nat × Nat)) := by
  have hN : ∀ p ∈ leafDepths t 0, p.2 ≤ ((leafDepths t 0).map Prod.snd).sum := by
    intro p hp
    exact List.single_le_sum (fun _ _ => Nat.zero_le _) p.2 (List.mem_map.mpr ⟨p, hp, rfl⟩)
  refine ⟨fun p hp => hN p (Multiset.mem_coe.mp hp), ?_⟩
  have hk := leafDepths_kraft t 0 _ h hN
  simpa [kraftSum] using hk

/-! ## The merge loop builds a tree of minimum weighted path length -/

theorem mergeLoop_optimal :
    ∀ (fuel : Nat) (F : List HNode), (∀ t ∈ F, t.wellFormed = true) → SortedByFreq F →
      F ≠ [] → F.length ≤ fuel →
      ∃ R, mergeLoop fuel F = some [R] ∧
        ∀ (N : Nat) (s : Multiset (Nat × Nat)), Feasible N s →
          s.map Prod.fst = (↑(F.map HNode.freq) : Multiset Nat) →
          wpl R ≤ (F.map wpl).sum + codeCost s := by
  intro fuel
  induction fuel with
  | zero =>
    intro F _ _ hne hlen
    exact absurd (List.length_eq_zero.mp (Nat.le_zero.mp hlen)) hne
  | succ fuel ih =>
    intro F hwf hsorted hne hlen
    match F, hwf, hsorted, hne, hlen with
    | [], _, _, hne, _ => exact absurd rfl hne
    | [a], _, _, _, _ =>
      refine ⟨a, by simp [mergeLoop], ?_⟩
      intro N s _ _
      simp
    | n0 :: n1 :: rest, hwf, hsorted, _, hlen =>
      obtain ⟨nodes2, hstep, hperm, hsorted2⟩ :=
        mergeStep_spec n0 n1 rest (noNil_of_wellFormed hwf)
      obtain ⟨_, _, hwf2, _⟩ := mergeStep_inv n0 n1 rest nodes2 hwf hstep
      have hlen2 : nodes2.length = rest.length + 1 := by
        rw [hperm.length_eq]; simp
      have hne2 : nodes2 ≠ [] := by
        intro h; rw [h] at hlen2; simp at hlen2
      obtain ⟨R, hloop, hopt⟩ :=
        ih nodes2 hwf2 hsorted2 hne2 (by simp at hlen; omega)
      refine ⟨R, ?_, ?_⟩
      · rw [mergeLoop_succ]
        have hl : (n0 :: n1 :: rest).length > 1 := by simp
        simp only [hl, if_true, hstep, hloop]
      · intro N s hf hw
        have h0 : n0.wellFormed = true := hwf n0 (by simp)
        have h1 : n1.wellFormed = true := hwf n1 (by simp)
        unfold SortedByFreq at hsorted
        simp only [List.pairwise_cons, List.mem_cons, forall_eq_or_imp] at hsorted
        have hw1 : s.map Prod.fst =
            n0.freq ::ₘ n1.freq ::ₘ (↑(rest.map HNode.freq) : Multiset Nat) := by
          rw [hw]; rfl
        obtain ⟨s1, hf1, hws1, hcost⟩ :=
          merge_two_smallest N s n0.freq n1.freq _ hf hw1 hsorted.1.1
            (by
              intro w hw2
              obtain ⟨x, hx, rfl⟩ := List.mem_map.mp (Multiset.mem_coe.mp hw2)
              exact hsorted.2.1 x hx)
        have hws2 : s1.map Prod.fst = (↑(nodes2.map HNode.freq) : Multiset Nat) := by
          rw [hws1]
          have hp : (nodes2.map HNode.freq).Perm
              ((HNode.mk 42 (n0.freq + n1.freq) n0 n1 :: rest).map HNode.freq) :=
            hperm.map _
          rw [Multiset.coe_eq_coe.mpr hp]
          rfl
        have hb := hopt N s1 hf1 hws2
        have hsum : (nodes2.map wpl).sum =
            ((HNode.mk 42 (n0.freq + n1.freq) n0 n1 :: rest).map wpl).sum :=
          (hperm.map wpl).sum_eq
        rw [hsum] at hb
        simp only [List.map_cons, List.sum_cons, wpl_merge _ n0 n1 h0 h1] at hb ⊢
        omega

theorem wpl_leafNodes (order : List (Nat × Nat)) : ((leafNodes order).map wpl).sum = 0 := by
  apply List.sum_eq_zero
  intro x hx
  obtain ⟨t, ht, rfl⟩ := List.mem_map.mp hx
  simp only [leafNodes, List.mem_map] at ht
  obtain ⟨e, _, rfl⟩ := ht
  simp [wpl, leafDepths]

theorem New_optimal (lines : List (List Nat)) (order : List (Nat × Nat))
    (hne : runes lines ≠ []) (hperm : order.Perm (countLines lines)) :
    ∃ h, New lines order = some (some h) ∧
      ∀ T : HNode, T.full = true → (leaves T).Perm (leaves h.root) →
        wpl h.root ≤ wpl T := by
  have hhash : countLines lines ≠ [] := fun h => hne ((countLines_eq_nil_iff lines).mp h)
  have hlen0 : 1 ≤ (countLines lines).length := by
    cases hc : countLines lines with
    | nil => exact absurd hc hhash
    | cons e rest => simp
  have hlenN : (leafNodes order).length = (countLines lines).length := by
    simp [leafNodes, hperm.length_eq]
  obtain ⟨init, hsort, hperm1, hsorted⟩ :=
    sort_sorted_of_bounds (leafNodes order) (noNil_of_full (full_leafNodes order))
  have hlen1 : init.length = (countLines lines).length := hperm1.length_eq.trans hlenN
  have hwf : ∀ x ∈ init, x.wellFormed = true :=
    fun x hx => wellFormed_leafNodes order x (hperm1.subset hx)
  have hinit : init ≠ [] := by
    intro h; rw [h] at hlen1; simp at hlen1; omega
  obtain ⟨R, hloop, hopt⟩ :=
    mergeLoop_optimal (init.length + 1) init hwf hsorted hinit (by omega)
  have hnew : New lines order = some (some { reader := [], root := R }) := by
    have hnot : ¬ (countLines lines).length < 1 := by omega
    have hidx : index [R] 0 = some R := by simp [index]
    simp [New, HTree.generateHuffmanTree, hnot, hsort, hloop, hidx]
  obtain ⟨_, _, _, _, _, _, hleaves⟩ := New_struct_of_eq lines order _ hperm hnew
  refine ⟨_, hnew, ?_⟩
  intro T hT hTl
  have hfeas := feasible_of_full T hT
  have hw : (↑(leafDepths T 0) : Multiset (Nat × Nat)).map Prod.fst =
      (↑(init.map HNode.freq) : Multiset Nat) := by
    rw [Multiset.map_coe, leafDepths_weights T 0 hT]
    apply Multiset.coe_eq_coe.mpr
    have h1 : ((leaves T).map Prod.snd).Perm (order.map Prod.snd) :=
      ((hTl.trans hleaves).trans hperm.symm).map _
    rw [← freq_leafNodes order] at h1
    exact h1.trans (hperm1.symm.map _)
  have hb := hopt _ _ hfeas hw
  have hzero : (init.map wpl).sum = 0 := by
    rw [(hperm1.map wpl).sum_eq]; exact wpl_leafNodes order
  have hcost : codeCost (↑(leafDepths T 0) : Multiset (Nat × Nat)) = wpl T := by
    simp [codeCost, wpl]
  rw [hzero, hcost] at hb
  simpa using hb

/-! ## The partition depends only on the entries from `start` to `end` -/

theorem partitionLoop_local (pivot : Nat) (start stop : Int) :
    ∀ (fuel : Nat) (A B : List HNode) (i j : Int), 0 ≤ start → stop < A.length →
      B.length = A.length → Win A start stop →
      (∀ k, start ≤ k → k ≤ stop → index B k = index A k) →
      start ≤ i → i ≤ stop → j ≤ stop → (start < i ∨ i ≤ j) →
      (i ≤ j → ∃ ku kd, i ≤ ku ∧ ku ≤ stop ∧ (ku < stop ∨ j < stop) ∧ pivot ≤ fq A ku ∧
          start ≤ kd ∧ kd ≤ j ∧ fq A kd ≤ pivot ∧ (start < i ∨ ku ≤ kd)) →
      (j + 1 - i).toNat + 1 ≤ fuel →
      ∃ A1 B1 p, partitionLoop pivot fuel A i j = some (A1, p) ∧
        partitionLoop pivot fuel B i j = some (B1, p) ∧ B1.length = A1.length ∧
        (∀ k, start ≤ k → k ≤ stop → index B1 k = index A1 k) ∧
        (∀ k, (k < start ∨ stop < k) → index B1 k = index B k) := by
  intro fuel
  induction fuel with
  | zero => intro A B i j _ _ _ _ _ _ _ _ _ _ hf; omega
  | succ fuel ih =>
    intro A B i j hs0 hstop hlenB hwin hagree hsi his hjs hdis hsent hf
    have hfq : ∀ k, start ≤ k → k ≤ stop → fq B k = fq A k :=
      fun k h1 h2 => fq_of_index_eq (hagree k h1 h2)
    have hwinB : Win B start stop := by
      intro k h1 h2
      obtain ⟨f, hf1⟩ := hwin k h1 h2
      exact ⟨f, by rw [freqAt_of_index_eq (hagree k h1 h2)]; exact hf1⟩
    by_cases hij : i ≤ j
    · obtain ⟨ku, kd, h1, h2, h3, h5, h6, h7, h9, h10⟩ := hsent hij
      obtain ⟨i1, hsu, hu1, hu2, hu4, hu5⟩ :=
        scanUp_window A pivot (A.length + 1) i ku (by omega) h1 (by omega)
          (fun m hm1 hm2 => hwin m (by omega) (by omega)) h5 (by omega)
      obtain ⟨i2, hsuB, hv1, hv2, hv4, hv5⟩ :=
        scanUp_window B pivot (B.length + 1) i ku (by omega) h1 (by omega)
          (fun m hm1 hm2 => hwinB m (by omega) (by omega))
          (by rw [hfq ku (by omega) h2]; exact h5) (by omega)
      have hi12 : i2 = i1 := by
        by_contra hne
        rcases lt_or_gt_of_ne hne with h | h
        · have := hu5 i2 hv1 h
          rw [hfq i2 (by omega) (by omega)] at hv4
          omega
        · have := hv5 i1 hu1 h
          rw [hfq i1 (by omega) (by omega)] at this
          omega
      subst hi12
      obtain ⟨j1, hsd, hd1, hd2, hd4, hd5⟩ :=
        scanDown_window A pivot (A.length + 1) j kd (by omega) h7 (by omega)
          (fun m hm1 hm2 => hwin m (by omega) (by omega)) h9 (by omega)
      obtain ⟨j2, hsdB, he1, he2, he4, he5⟩ :=
        scanDown_window B pivot (B.length + 1) j kd (by omega) h7 (by omega)
          (fun m hm1 hm2 => hwinB m (by omega) (by omega))
          (by rw [hfq kd h6 (by omega)]; exact h9) (by omega)
      have hj12 : j2 = j1 := by
        by_contra hne
        rcases lt_or_gt_of_ne hne with h | h
        · have := he5 j1 h hd2
          rw [hfq j1 (by omega) (by omega)] at this
          omega
        · have := hd5 j2 h he2
          rw [hfq j2 (by omega) (by omega)] at he4
          omega
      subst hj12
      by_cases hsw : i2 ≤ j2
      · obtain ⟨A1, hswapA, hpermA, hframeA, ha1, ha2, ha3⟩ :=
          swap_frame A start stop i2 j2 (by omega) hsw (by omega) (by omega) (by omega)
        obtain ⟨B1, hswapB, hpermB, hframeB, hb1, hb2, hb3⟩ :=
          swap_frame B start stop i2 j2 (by omega) hsw (by omega) (by omega) (by omega)
        have hlenA1 : A1.length = A.length := hpermA.length_eq
        have hlenB1 : B1.length = A1.length := by
          rw [hpermB.length_eq, hlenB, hlenA1]
        have hagree1 : ∀ k, start ≤ k → k ≤ stop → index B1 k = index A1 k := by
          intro k hk1 hk2
          by_cases hki : k = i2
          · subst hki; rw [hb1, ha1]; exact hagree j2 (by omega) (by omega)
          · by_cases hkj : k = j2
            · subst hkj; rw [hb2, ha2]; exact hagree i2 (by omega) (by omega)
            · rw [hb3 k hki hkj, ha3 k hki hkj]; exact hagree k hk1 hk2
        obtain ⟨A2, B2, p, hloopA, hloopB, hlen2, hagree2, hout2⟩ :=
          ih A1 B1 (i2 + 1) (j2 - 1) hs0 (by omega) hlenB1 (Win.of_frame hframeA hwin)
            hagree1 (by omega) (by omega) (by omega) (Or.inl (by omega))
            (fun hle => ⟨j2, i2, by omega, by omega, Or.inr (by omega),
              by rw [fq_of_index_eq ha2]; exact hu4, by omega, by omega,
              by rw [fq_of_index_eq ha1]; exact hd4, Or.inl (by omega)⟩)
            (by omega)
        refine ⟨A2, B2, p, ?_, ?_, hlen2, hagree2, ?_⟩
        · simp [partitionLoop, hij, hsu, hsd, hsw, hswapA, hloopA]
        · simp [partitionLoop, hij, hsuB, hsdB, hsw, hswapB, hloopB]
        · intro k hk
          rw [hout2 k hk]
          exact hframeB.2.1 k hk
      · have hlt : start < i2 := by
          rcases h10 with h | h
          · omega
          · omega
        obtain ⟨A2, B2, p, hloopA, hloopB, hlen2, hagree2, hout2⟩ :=
          ih A B i2 j2 hs0 hstop hlenB hwin hagree (by omega) (by omega) (by omega)
            (Or.inl hlt) (fun hle => absurd hle hsw) (by omega)
        refine ⟨A2, B2, p, ?_, ?_, hlen2, hagree2, hout2⟩
        · simp [partitionLoop, hij, hsu, hsd, hsw, hloopA]
        · simp [partitionLoop, hij, hsuB, hsdB, hsw, hloopB]
    · exact ⟨A, B, i, by simp [partitionLoop, hij], by simp [partitionLoop, hij], hlenB,
        hagree, fun _ _ => rfl⟩

theorem partition_local (A B : List HNode) (start stop : Int) (hs0 : 0 ≤ start)
    (hlt : start < stop) (hstop : stop < A.length) (hlenB : B.length = A.length)
    (hwin : Win A start stop)
    (hagree : ∀ k, start ≤ k → k ≤ stop → index B k = index A k) :
    ∃ A1 B1 p, partition A start stop = some (A1, p) ∧
      partition B start stop = some (B1, p) ∧
      (∀ k, start ≤ k → k ≤ stop → index B1 k = index A1 k) ∧
      (∀ k, (k < start ∨ stop < k) → index B1 k = index B k) := by
  have hdiv : (start + stop).tdiv 2 = (start + stop) / 2 :=
    Int.tdiv_eq_ediv (by omega) (by omega)
  obtain ⟨pivot, hpv⟩ := hwin ((start + stop) / 2) (by omega) (by omega)
  have hpvB : freqAt B ((start + stop) / 2) = some pivot := by
    rw [freqAt_of_index_eq (hagree _ (by omega) (by omega))]; exact hpv
  have hfq : fq A ((start + stop) / 2) = pivot := fq_of_freqAt hpv
  obtain ⟨A1, B1, p, hA, hB, _, hag, hout⟩ :=
    partitionLoop_local pivot start stop (A.length + 2) A B start stop hs0 hstop hlenB hwin
      hagree (le_refl _) (by omega) (le_refl _) (Or.inr (by omega))
      (fun _ => ⟨(start + stop) / 2, (start + stop) / 2, by omega, by omega,
        Or.inl (by omega), by omega, by omega, by omega, by omega, Or.inr (le_refl _)⟩)
      (by omega)
  refine ⟨A1, B1, p, by simp [partition, hdiv, hpv, hA], ?_, hag, hout⟩
  simp [partition, hdiv, hpvB, hlenB, hB]

/-! ## What the scanner yields for a corpus that is one line -/

theorem scanLinesAux_no_newline (l : List Nat) (hl : ∀ b ∈ l, b ≠ 10) :
    ∀ cur : List Nat, scanLinesAux cur l = scanLinesAux (cur ++ l) [] := by
  induction l with
  | nil => intro cur; simp
  | cons b rest ih =>
    intro cur
    have hb : b ≠ 10 := hl b (by simp)
    have h := ih (fun x hx => hl x (by simp [hx])) (cur ++ [b])
    have hstep : scanLinesAux cur (b :: rest) = scanLinesAux (cur ++ [b]) rest := by
      rw [scanLinesAux]; simp only [hb, if_false]
    rw [hstep, h, List.append_assoc]
    rfl

theorem dropCR_of_not_mem (l : List Nat) (h : 13 ∉ l) : dropCR l = l := by
  unfold dropCR
  have hne : ¬ l.getLast? = some 13 := by
    intro hl
    exact h (List.mem_of_getLast?_eq_some hl)
  simp [hne]

theorem scanLines_short (l : List Nat) (hne : l ≠ []) (h10 : ∀ b ∈ l, b ≠ 10)
    (h13 : 13 ∉ l) (hlen : l.length < 65536) : scanLines l = [l] := by
  have hn : ¬ 65536 ≤ l.length := by omega
  unfold scanLines
  rw [scanLinesAux_no_newline l h10 []]
  simp only [List.nil_append, scanLinesAux, hne, if_false, hn, dropCR_of_not_mem l h13]

theorem scanLines_long (l : List Nat) (h10 : ∀ b ∈ l, b ≠ 10) (hlen : 65536 ≤ l.length) :
    scanLines l = [] := by
  unfold scanLines
  rw [scanLinesAux_no_newline l h10 []]
  simp only [List.nil_append, scanLinesAux, hlen, if_true]
  split_ifs <;> rfl

theorem decodeRunes_ascii (l : List Nat) (h : ∀ b ∈ l, b < 128) : decodeRunes 0 l = l := by
  induction l with
  | nil => rfl
  | cons b rest ih =>
    have hb : b < 128 := h b (by simp)
    have h2 := ih (fun x hx => h x (by simp [hx]))
    simp only [decodeRunes, decodeRune, hb, if_true, Nat.sub_self, h2]

theorem scan_short (l : List Nat) (hne : l ≠ []) (hbyte : ∀ b ∈ l, b < 128)
    (h10 : ∀ b ∈ l, b ≠ 10) (h13 : 13 ∉ l) (hlen : l.length < 65536) : scan l = [l] := by
  unfold scan
  rw [scanLines_short l hne h10 h13 hlen]
  simp [decodeRunes_ascii l hbyte]

theorem scan_long (l : List Nat) (h10 : ∀ b ∈ l, b ≠ 10) (hlen : 65536 ≤ l.length) :
    scan l = [] := by
  unfold scan
  rw [scanLines_long l h10 hlen]
  rfl

/-! ## A corpus of one repeated symbol, a corpus of one line -/

theorem root_is_leaf_of_single_rune (lines : List (List Nat)) (order : List (Nat × Nat))
    (s n : Nat) (hn : 1 ≤ n) (hrunes : runes lines = List.replicate n s)
    (hperm : order.Perm (countLines lines)) :
    New lines order = some (some ⟨[], HNode.mk (s % 256) n HNode.nil HNode.nil⟩) ∧
      HNode.encode (HNode.mk (s % 256) n HNode.nil HNode.nil) (s % 256) [] = [] := by
  obtain ⟨m, rfl⟩ : ∃ m, n = m + 1 := ⟨n - 1, by omega⟩
  have hc : countLines lines = [(s % 256, m + 1)] := countLines_single lines s m hrunes
  have hne : runes lines ≠ [] := by rw [hrunes]; simp [List.replicate_succ]
  obtain ⟨root, hroot, _, _, hone⟩ := New_spec lines order hperm hne
  have hord : order = [(s % 256, m + 1)] := by
    rw [hc] at hperm; exact List.perm_singleton.mp hperm
  have hleaf := hone (by rw [hc]; rfl)
  rw [hord] at hleaf
  simp only [leafNodes, List.map_cons, List.map_nil, List.cons.injEq, and_true] at hleaf
  rw [← hleaf] at hroot
  exact ⟨hroot, by simp [HNode.encode]⟩

theorem leaves_of_one_line (line : List Nat) (order : List (Nat × Nat))
    (hne : line ≠ []) (hbyte : ∀ c ∈ line, c < 128)
    (hperm : order.Perm (countLines [line])) :
    ∃ h, New [line] order = some (some h) ∧
      (∀ v ∈ line, ((leaves h.root).map Prod.fst).count v = 1 ∧
        (v, line.count v) ∈ leaves h.root ∧ 1 ≤ line.count v) ∧
      (∀ v f, (v, f) ∈ leaves h.root → v ∈ line ∧ f = line.count v) := by
  have hr : runes [line] ≠ [] := by simpa [runes] using hne
  obtain ⟨root, hnew, _, _, _⟩ := New_spec [line] order hperm hr
  obtain ⟨hnd, hmem⟩ := leaves_spec [line] order _ hperm hnew
  rw [corpusBytes_single line hbyte] at hmem
  refine ⟨_, hnew, ?_, fun v f hvf => (hmem v f).mp hvf⟩
  intro v hv
  have hin : (v, line.count v) ∈ leaves root := (hmem v _).mpr ⟨hv, rfl⟩
  refine ⟨?_, hin, List.count_pos_iff.mpr hv⟩
  exact List.count_eq_one_of_mem hnd (List.mem_map.mpr ⟨_, hin, rfl⟩)

/-! ## The claims -/

/-- C1 (round trip), evaluated on the corpus "ab": for both enumeration orders of
the frequency map, `New` builds a root with the two leaves as children, the
encoder turns the input "ab" into "0101", and `Decode` turns "0101" into three
bytes ("bab", or "aba" for the other order), not into "ab". -/
theorem roundtrip_fails_on_ab :
    New [[97, 98]] [(97, 1), (98, 1)] =
        some (some ⟨[], HNode.mk 42 2 (HNode.mk 98 1 HNode.nil HNode.nil)
          (HNode.mk 97 1 HNode.nil HNode.nil)⟩) ∧
      HTree.EncodeText ⟨[], HNode.mk 42 2 (HNode.mk 98 1 HNode.nil HNode.nil)
          (HNode.mk 97 1 HNode.nil HNode.nil)⟩ [[97, 98]] = Except.ok [48, 49, 48, 49] ∧
      HTree.Decode ⟨[], HNode.mk 42 2 (HNode.mk 98 1 HNode.nil HNode.nil)
          (HNode.mk 97 1 HNode.nil HNode.nil)⟩ [48, 49, 48, 49] = some [98, 97, 98] ∧
      New [[97, 98]] [(98, 1), (97, 1)] =
        some (some ⟨[], HNode.mk 42 2 (HNode.mk 97 1 HNode.nil HNode.nil)
          (HNode.mk 98 1 HNode.nil HNode.nil)⟩) ∧
      HTree.EncodeText ⟨[], HNode.mk 42 2 (HNode.mk 97 1 HNode.nil HNode.nil)
          (HNode.mk 98 1 HNode.nil HNode.nil)⟩ [[97, 98]] = Except.ok [48, 49, 48, 49] ∧
      HTree.Decode ⟨[], HNode.mk 42 2 (HNode.mk 97 1 HNode.nil HNode.nil)
          (HNode.mk 98 1 HNode.nil HNode.nil)⟩ [48, 49, 48, 49] = some [97, 98, 97] :=
  ⟨rfl, rfl, rfl, rfl, rfl, rfl⟩

/-- C2 (decoder inverts path codes), evaluated on the tree built from "ab": the
leaf of 'b' is at path "0" and the leaf of 'a' at path "1", and `Decode` returns
the empty sequence for "0" (the code of 'b') and only "b" for "01" (the codes of
'b' and 'a'): the symbol of the last code is not emitted. -/
theorem decode_drops_last_symbol_on_ab :
    New [[97, 98]] [(97, 1), (98, 1)] =
        some (some ⟨[], HNode.mk 42 2 (HNode.mk 98 1 HNode.nil HNode.nil)
          (HNode.mk 97 1 HNode.nil HNode.nil)⟩) ∧
      descend (HNode.mk 42 2 (HNode.mk 98 1 HNode.nil HNode.nil)
          (HNode.mk 97 1 HNode.nil HNode.nil)) [48] = HNode.mk 98 1 HNode.nil HNode.nil ∧
      descend (HNode.mk 42 2 (HNode.mk 98 1 HNode.nil HNode.nil)
          (HNode.mk 97 1 HNode.nil HNode.nil)) [49] = HNode.mk 97 1 HNode.nil HNode.nil ∧
      HTree.Decode ⟨[], HNode.mk 42 2 (HNode.mk 98 1 HNode.nil HNode.nil)
          (HNode.mk 97 1 HNode.nil HNode.nil)⟩ [48] = some [] ∧
      HTree.Decode ⟨[], HNode.mk 42 2 (HNode.mk 98 1 HNode.nil HNode.nil)
          (HNode.mk 97 1 HNode.nil HNode.nil)⟩ [48, 49] = some [98] :=
  ⟨rfl, rfl, rfl, rfl, rfl⟩

/-- C3 (code of a symbol is its tree path), evaluated on the tree built from
"ab": the leaf of 'a' is at path "1" and the leaf of 'b' at path "0", and
`encode` returns "01" for 'a' and for 'b'. -/
theorem encode_is_not_the_path_on_ab :
    New [[97, 98]] [(97, 1), (98, 1)] =
        some (some ⟨[], HNode.mk 42 2 (HNode.mk 98 1 HNode.nil HNode.nil)
          (HNode.mk 97 1 HNode.nil HNode.nil)⟩) ∧
      descend (HNode.mk 42 2 (HNode.mk 98 1 HNode.nil HNode.nil)
          (HNode.mk 97 1 HNode.nil HNode.nil)) [49] = HNode.mk 97 1 HNode.nil HNode.nil ∧
      HNode.encode (HNode.mk 42 2 (HNode.mk 98 1 HNode.nil HNode.nil)
          (HNode.mk 97 1 HNode.nil HNode.nil)) 97 [] = [48, 49] ∧
      descend (HNode.mk 42 2 (HNode.mk 98 1 HNode.nil HNode.nil)
          (HNode.mk 97 1 HNode.nil HNode.nil)) [48] = HNode.mk 98 1 HNode.nil HNode.nil ∧
      HNode.encode (HNode.mk 42 2 (HNode.mk 98 1 HNode.nil HNode.nil)
          (HNode.mk 97 1 HNode.nil HNode.nil)) 98 [] = [48, 49] :=
  ⟨rfl, rfl, rfl, rfl, rfl⟩

/-- C4 (prefix-free codes), evaluated on the tree built from "ab": the string
`encode` produces for 'a' is a prefix of the one it produces for 'b', and the
other way round (both are "01"). -/
theorem codes_are_prefixes_on_ab :
    New [[97, 98]] [(97, 1), (98, 1)] =
        some (some ⟨[], HNode.mk 42 2 (HNode.mk 98 1 HNode.nil HNode.nil)
          (HNode.mk 97 1 HNode.nil HNode.nil)⟩) ∧
      List.IsPrefix
        (HNode.encode (HNode.mk 42 2 (HNode.mk 98 1 HNode.nil HNode.nil)
          (HNode.mk 97 1 HNode.nil HNode.nil)) 97 [])
        (HNode.encode (HNode.mk 42 2 (HNode.mk 98 1 HNode.nil HNode.nil)
          (HNode.mk 97 1 HNode.nil HNode.nil)) 98 []) ∧
      List.IsPrefix
        (HNode.encode (HNode.mk 42 2 (HNode.mk 98 1 HNode.nil HNode.nil)
          (HNode.mk 97 1 HNode.nil HNode.nil)) 98 [])
        (HNode.encode (HNode.mk 42 2 (HNode.mk 98 1 HNode.nil HNode.nil)
          (HNode.mk 97 1 HNode.nil HNode.nil)) 97 []) :=
  ⟨rfl, ⟨[], rfl⟩, ⟨[], rfl⟩⟩

/-- C5, the claim fails: on the tree built from "ab", encoding the input "c" (a
byte that does not occur in the corpus) returns the string "01" and no error. -/
theorem encode_unknown_symbol_no_error :
    New [[97, 98]] [(97, 1), (98, 1)] =
        some (some ⟨[], HNode.mk 42 2 (HNode.mk 98 1 HNode.nil HNode.nil)
          (HNode.mk 97 1 HNode.nil HNode.nil)⟩) ∧
      99 ∉ runes [[97, 98]] ∧
      HTree.EncodeText ⟨[], HNode.mk 42 2 (HNode.mk 98 1 HNode.nil HNode.nil)
          (HNode.mk 97 1 HNode.nil HNode.nil)⟩ [[99]] = Except.ok [48, 49] :=
  ⟨rfl, by decide, rfl⟩

/-- C5 as amended: for every tree built by `New` and every input, whether its
bytes occur in the corpus or not, encoding returns a string of '0' and '1'
characters and no error. -/
theorem EncodeText_returns_bits (lines : List (List Nat)) (order : List (Nat × Nat))
    (h : HTree) (input : List (List Nat)) (hperm : order.Perm (countLines lines))
    (hnew : New lines order = some (some h)) :
    ∃ out, h.EncodeText input = Except.ok out ∧ ∀ c ∈ out, c = 48 ∨ c = 49 := by
  have hne : h.root ≠ HNode.nil := full_ne_nil (New_root_full lines order h hperm hnew)
  exact ⟨encodeLines h.root input, by simp [HTree.EncodeText, hne],
    encodeLines_chars h.root input⟩

/-- Witness of C5 as amended: the tree built from "ab" and the input "c". -/
theorem EncodeText_returns_bits_witness :
    [(97, 1), (98, 1)].Perm (countLines [[97, 98]]) ∧
      ∃ out, HTree.EncodeText ⟨[], HNode.mk 42 2 (HNode.mk 98 1 HNode.nil HNode.nil)
          (HNode.mk 97 1 HNode.nil HNode.nil)⟩ [[99]] = Except.ok out ∧
        ∀ c ∈ out, c = 48 ∨ c = 49 :=
  ⟨by decide, EncodeText_returns_bits [[97, 98]] [(97, 1), (98, 1)] _ [[99]] (by decide) rfl⟩

/-- C6, the claim fails: on the tree built from "abc" the path "1" ends at the
internal node above 'b' and 'c', which is not the root, and `Decode` of "01"
(the code "0" of 'a', then the truncated code "1") returns the sequence "a" and
signals nothing. -/
theorem decode_truncated_returns_on_abc :
    New [[97, 98, 99]] [(97, 1), (98, 1), (99, 1)] =
        some (some ⟨[], HNode.mk 42 3 (HNode.mk 97 1 HNode.nil HNode.nil)
          (HNode.mk 42 2 (HNode.mk 98 1 HNode.nil HNode.nil)
            (HNode.mk 99 1 HNode.nil HNode.nil))⟩) ∧
      descend (HNode.mk 42 3 (HNode.mk 97 1 HNode.nil HNode.nil)
          (HNode.mk 42 2 (HNode.mk 98 1 HNode.nil HNode.nil)
            (HNode.mk 99 1 HNode.nil HNode.nil))) [49] =
        HNode.mk 42 2 (HNode.mk 98 1 HNode.nil HNode.nil) (HNode.mk 99 1 HNode.nil HNode.nil) ∧
      HTree.Decode ⟨[], HNode.mk 42 3 (HNode.mk 97 1 HNode.nil HNode.nil)
          (HNode.mk 42 2 (HNode.mk 98 1 HNode.nil HNode.nil)
            (HNode.mk 99 1 HNode.nil HNode.nil))⟩ [48, 49] = some [97] :=
  ⟨rfl, rfl, rfl⟩

/-- C6 as amended: for every tree built by `New` from a corpus with at least two
distinct symbols, and every string made of the root-to-leaf paths of symbols
`s1..sn` followed by a non-empty path `q` that ends at an internal node (a
truncated code), `Decode` returns normally, and what it returns is the
sequence `s1..sn` decoded so far. -/
theorem Decode_truncated_returns_decoded (lines : List (List Nat))
    (order : List (Nat × Nat)) (h : HTree) (a b : Nat) (ps : List (List Nat))
    (ss q : List Nat) (hperm : order.Perm (countLines lines)) (ha : a ∈ runes lines)
    (hb : b ∈ runes lines) (hab : a % 256 ≠ b % 256)
    (hnew : New lines order = some (some h))
    (hcodes : List.Forall₂ (IsCode h.root) ps ss) (hq : q ≠ [])
    (hfull : (descend h.root q).full = true) (_hint : (descend h.root q).isLeaf = false) :
    h.Decode (ps.flatten ++ q) = some ss := by
  obtain ⟨f, l, r, hroot, hl, hr⟩ := New_two lines order h hperm a b ha hb hab hnew
  exact Decode_codes_truncated h f l r hroot hl hr ps ss hcodes q hq (full_ne_nil hfull)

/-- Witness of C6 as amended: the tree built from "abc", the code "0" of 'a' and
the truncated code "1". -/
theorem Decode_truncated_returns_decoded_witness :
    [(97, 1), (98, 1), (99, 1)].Perm (countLines [[97, 98, 99]]) ∧
      HTree.Decode ⟨[], HNode.mk 42 3 (HNode.mk 97 1 HNode.nil HNode.nil)
          (HNode.mk 42 2 (HNode.mk 98 1 HNode.nil HNode.nil)
            (HNode.mk 99 1 HNode.nil HNode.nil))⟩ ([[48]].flatten ++ [49]) = some [97] :=
  ⟨by decide,
    Decode_truncated_returns_decoded [[97, 98, 99]] [(97, 1), (98, 1), (99, 1)] _ 97 98
      [[48]] [97] [49] (by decide) (by decide) (by decide) (by decide) rfl
      (List.Forall₂.cons ⟨1, rfl⟩ List.Forall₂.nil) (by decide) rfl rfl⟩

/-- C7, the claim fails: on the tree built from "ab", `Decode` of the string
"021", which holds the character '2', returns the sequence "b" and signals
nothing. -/
theorem decode_invalid_character_returns_on_ab :
    New [[97, 98]] [(97, 1), (98, 1)] =
        some (some ⟨[], HNode.mk 42 2 (HNode.mk 98 1 HNode.nil HNode.nil)
          (HNode.mk 97 1 HNode.nil HNode.nil)⟩) ∧
      HTree.Decode ⟨[], HNode.mk 42 2 (HNode.mk 98 1 HNode.nil HNode.nil)
          (HNode.mk 97 1 HNode.nil HNode.nil)⟩ [48, 50, 49] = some [98] :=
  ⟨rfl, rfl⟩

/-- C7 as amended: for every tree built by `New` from a corpus with at least two
distinct symbols and every encoded string containing a character other than
'0' or '1', `Decode` returns a decoded byte sequence; the character is not
reported. -/
theorem Decode_invalid_character_returns (lines : List (List Nat))
    (order : List (Nat × Nat)) (h : HTree) (a b : Nat) (encoded : List Nat)
    (hperm : order.Perm (countLines lines)) (ha : a ∈ runes lines) (hb : b ∈ runes lines)
    (hab : a % 256 ≠ b % 256) (hnew : New lines order = some (some h))
    (_hbad : ∃ c ∈ encoded, c ≠ 48 ∧ c ≠ 49) :
    ∃ out, h.Decode encoded = some out := by
  obtain ⟨f, l, r, hroot, hl, hr⟩ := New_two lines order h hperm a b ha hb hab hnew
  exact Decode_total_of_internal h f l r hroot hl hr encoded

/-- Witness of C7 as amended: the tree built from "ab" and the string "021". -/
theorem Decode_invalid_character_returns_witness :
    [(97, 1), (98, 1)].Perm (countLines [[97, 98]]) ∧
      (∃ c ∈ [48, 50, 49], c ≠ 48 ∧ c ≠ 49) ∧
      ∃ out, HTree.Decode ⟨[], HNode.mk 42 2 (HNode.mk 98 1 HNode.nil HNode.nil)
          (HNode.mk 97 1 HNode.nil HNode.nil)⟩ [48, 50, 49] = some out :=
  ⟨by decide, by decide,
    Decode_invalid_character_returns [[97, 98]] [(97, 1), (98, 1)] _ 97 98 [48, 50, 49]
      (by decide) (by decide) (by decide) (by decide) rfl (by decide)⟩

/-- C8: when the corpus holds no symbol, `generateHuffmanTree` returns an error
and `New` returns nil; when it holds at least one, `New` returns a tree whose
root is not nil. -/
theorem New_nil_iff_no_symbol (lines : List (List Nat)) (order : List (Nat × Nat))
    (hperm : order.Perm (countLines lines)) :
    (runes lines = [] →
        (∃ ht msg, HTree.generateHuffmanTree { reader := lines, root := HNode.nil } order =
          some (ht, some msg)) ∧
        New lines order = some none) ∧
      (runes lines ≠ [] → ∃ h, New lines order = some (some h) ∧ h.root ≠ HNode.nil) := by
  constructor
  · intro hr
    exact ⟨⟨_, _, (New_of_empty lines order hr).1⟩, (New_of_empty lines order hr).2⟩
  · intro hr
    obtain ⟨root, hroot, hfull, _, _⟩ := New_spec lines order hperm hr
    exact ⟨_, hroot, full_ne_nil hfull⟩

/-- Witness of C8: the corpus "ab". -/
theorem New_nil_iff_no_symbol_witness :
    [(97, 1), (98, 1)].Perm (countLines [[97, 98]]) ∧
      ∃ h, New [[97, 98]] [(97, 1), (98, 1)] = some (some h) ∧ h.root ≠ HNode.nil :=
  ⟨by decide, (New_nil_iff_no_symbol [[97, 98]] [(97, 1), (98, 1)] (by decide)).2 (by decide)⟩

/-- C9, the claim fails: the scanner yields the corpus "aaa" as the one line
"aaa"; the root `New` returns is the bare leaf of 'a' and the code `encode`
gives 'a' is empty. -/
theorem single_symbol_code_is_empty_on_aaa :
    scan [97, 97, 97] = [[97, 97, 97]] ∧
      New (scan [97, 97, 97]) [(97, 3)] =
        some (some ⟨[], HNode.mk 97 3 HNode.nil HNode.nil⟩) ∧
      HNode.encode (HNode.mk 97 3 HNode.nil HNode.nil) 97 [] = [] :=
  ⟨rfl, rfl, rfl⟩

/-- C9 as amended: for every corpus consisting of one single-byte character `s`
other than a line terminator, repeated `n` times with `1 <= n < 65536` (so that
the scanner yields the corpus as one line), the root of the tree built by `New`
is the bare leaf of `s`, with frequency `n` and no children, and the code
`encode` gives `s` is empty. -/
theorem single_symbol_root_is_leaf (s n : Nat) (order : List (Nat × Nat)) (hs : s < 128)
    (h10 : s ≠ 10) (h13 : s ≠ 13) (hn : 1 ≤ n) (hlen : n < 65536)
    (hperm : order.Perm (countLines (scan (List.replicate n s)))) :
    New (scan (List.replicate n s)) order =
        some (some ⟨[], HNode.mk s n HNode.nil HNode.nil⟩) ∧
      HNode.encode (HNode.mk s n HNode.nil HNode.nil) s [] = [] := by
  have hne : List.replicate n s ≠ [] := by
    intro h
    have h2 := congrArg List.length h
    rw [List.length_replicate] at h2
    simp at h2; omega
  have hmem : ∀ b ∈ List.replicate n s, b = s := fun b hb => List.eq_of_mem_replicate hb
  have hscan : scan (List.replicate n s) = [List.replicate n s] :=
    scan_short _ hne (fun b hb => by rw [hmem b hb]; exact hs)
      (fun b hb => by rw [hmem b hb]; exact h10)
      (fun h => h13 (hmem 13 h).symm) (by rw [List.length_replicate]; exact hlen)
  rw [hscan] at hperm ⊢
  have h := root_is_leaf_of_single_rune [List.replicate n s] order s n hn
    (by simp [runes]) hperm
  rw [Nat.mod_eq_of_lt (lt_trans hs (by decide))] at h
  exact h

/-- Witness of C9 as amended: the corpus "aaa". -/
theorem single_symbol_root_is_leaf_witness :
    97 < 128 ∧ 97 ≠ 10 ∧ 97 ≠ 13 ∧ 1 ≤ 3 ∧ 3 < 65536 ∧
      [(97, 3)].Perm (countLines (scan (List.replicate 3 97))) ∧
      New (scan (List.replicate 3 97)) [(97, 3)] =
        some (some ⟨[], HNode.mk 97 3 HNode.nil HNode.nil⟩) ∧
      HNode.encode (HNode.mk 97 3 HNode.nil HNode.nil) 97 [] = [] :=
  ⟨by decide, by decide, by decide, by decide, by decide, by decide,
    single_symbol_root_is_leaf 97 3 [(97, 3)] (by decide) (by decide) (by decide)
      (by decide) (by decide) (by decide)⟩

/-- C10 (Decode is total on built trees), evaluated on the corpus "a": `New`
returns the bare leaf of 'a' as root, and `Decode` of "00" dereferences the nil
left child of that leaf at its second character and panics. -/
theorem Decode_panics_on_single_symbol_tree :
    New [[97]] [(97, 1)] = some (some ⟨[], HNode.mk 97 1 HNode.nil HNode.nil⟩) ∧
      decodeStep (HNode.mk 97 1 HNode.nil HNode.nil) [] (HNode.mk 97 1 HNode.nil HNode.nil) 48 =
        some ([97], HNode.nil) ∧
      HTree.Decode ⟨[], HNode.mk 97 1 HNode.nil HNode.nil⟩ [48, 48] = none :=
  ⟨rfl, rfl, rfl⟩

/-- C11, the claim fails: the frequency map of the corpus "ab" can be enumerated
as a, b or as b, a; the first order gives a root with the leaf of 'b' on the
left and the leaf of 'a' on the right, the second the opposite, so the path
"0" leads to 'b' in one build and to 'a' in the other. -/
theorem build_depends_on_map_order_on_ab :
    [(97, 1), (98, 1)].Perm (countLines [[97, 98]]) ∧
      [(98, 1), (97, 1)].Perm (countLines [[97, 98]]) ∧
      New [[97, 98]] [(97, 1), (98, 1)] =
        some (some ⟨[], HNode.mk 42 2 (HNode.mk 98 1 HNode.nil HNode.nil)
          (HNode.mk 97 1 HNode.nil HNode.nil)⟩) ∧
      New [[97, 98]] [(98, 1), (97, 1)] =
        some (some ⟨[], HNode.mk 42 2 (HNode.mk 97 1 HNode.nil HNode.nil)
          (HNode.mk 98 1 HNode.nil HNode.nil)⟩) ∧
      descend (HNode.mk 42 2 (HNode.mk 98 1 HNode.nil HNode.nil)
          (HNode.mk 97 1 HNode.nil HNode.nil)) [48] = HNode.mk 98 1 HNode.nil HNode.nil ∧
      descend (HNode.mk 42 2 (HNode.mk 97 1 HNode.nil HNode.nil)
          (HNode.mk 98 1 HNode.nil HNode.nil)) [48] = HNode.mk 97 1 HNode.nil HNode.nil :=
  ⟨by decide, by decide, rfl, rfl, rfl, rfl⟩

/-- C11 as amended: for every corpus in which no two symbols have the same
number of occurrences, `New` returns the same result, hence the same tree and
the same root-to-leaf paths, for every order in which the entries of the
frequency map are enumerated. -/
theorem New_same_for_every_order_of_distinct_counts (lines : List (List Nat))
    (order1 order2 : List (Nat × Nat)) (h1 : order1.Perm (countLines lines))
    (h2 : order2.Perm (countLines lines))
    (hnd : ((countLines lines).map Prod.snd).Nodup) :
    New lines order1 = New lines order2 := by
  apply New_eq_of_sort_eq
  apply sort_leafNodes_unique order1 order2 (h1.trans h2.symm)
  exact (h2.map Prod.snd).nodup_iff.mpr hnd

/-- Witness of C11 as amended: the corpus "aab", enumerated as a, b and as b, a. -/
theorem New_same_for_every_order_of_distinct_counts_witness :
    [(97, 2), (98, 1)].Perm (countLines [[97, 97, 98]]) ∧
      [(98, 1), (97, 2)].Perm (countLines [[97, 97, 98]]) ∧
      ((countLines [[97, 97, 98]]).map Prod.snd).Nodup ∧
      New [[97, 97, 98]] [(97, 2), (98, 1)] = New [[97, 97, 98]] [(98, 1), (97, 2)] :=
  ⟨by decide, by decide, by decide,
    New_same_for_every_order_of_distinct_counts [[97, 97, 98]] [(97, 2), (98, 1)]
      [(98, 1), (97, 2)] (by decide) (by decide) (by decide)⟩

/-- C12: for the corpus "aaaabbbcc" and every enumeration order of its frequency
map, the sorted working set is c(2), b(3), a(4); the first merge makes of c and
b an internal node of frequency 5 and leaves the working set a(4), node(5); the
second merge makes of a and that node the root, of frequency 9. -/
theorem merges_of_aaaabbbcc (order : List (Nat × Nat))
    (hperm : order.Perm (countLines [[97, 97, 97, 97, 98, 98, 98, 99, 99]])) :
    sort (leafNodes order) 0 (((leafNodes order).length : Int) - 1) =
        some [HNode.mk 99 2 HNode.nil HNode.nil, HNode.mk 98 3 HNode.nil HNode.nil,
          HNode.mk 97 4 HNode.nil HNode.nil] ∧
      mergeStep [HNode.mk 99 2 HNode.nil HNode.nil, HNode.mk 98 3 HNode.nil HNode.nil,
          HNode.mk 97 4 HNode.nil HNode.nil] =
        some [HNode.mk 97 4 HNode.nil HNode.nil,
          HNode.mk 42 5 (HNode.mk 99 2 HNode.nil HNode.nil)
            (HNode.mk 98 3 HNode.nil HNode.nil)] ∧
      mergeStep [HNode.mk 97 4 HNode.nil HNode.nil,
          HNode.mk 42 5 (HNode.mk 99 2 HNode.nil HNode.nil)
            (HNode.mk 98 3 HNode.nil HNode.nil)] =
        some [HNode.mk 42 9 (HNode.mk 97 4 HNode.nil HNode.nil)
          (HNode.mk 42 5 (HNode.mk 99 2 HNode.nil HNode.nil)
            (HNode.mk 98 3 HNode.nil HNode.nil))] ∧
      New [[97, 97, 97, 97, 98, 98, 98, 99, 99]] order =
        some (some ⟨[], HNode.mk 42 9 (HNode.mk 97 4 HNode.nil HNode.nil)
          (HNode.mk 42 5 (HNode.mk 99 2 HNode.nil HNode.nil)
            (HNode.mk 98 3 HNode.nil HNode.nil))⟩) := by
  have hc : countLines [[97, 97, 97, 97, 98, 98, 98, 99, 99]] = [(97, 4), (98, 3), (99, 2)] :=
    rfl
  rw [hc] at hperm
  have hs := sort_leafNodes_unique order [(97, 4), (98, 3), (99, 2)] hperm (by decide)
  refine ⟨hs.trans rfl, rfl, rfl, ?_⟩
  exact (New_eq_of_sort_eq _ order [(97, 4), (98, 3), (99, 2)] hs).trans rfl

/-- Witness of C12: the enumeration order b, c, a. -/
theorem merges_of_aaaabbbcc_witness :
    [(98, 3), (99, 2), (97, 4)].Perm (countLines [[97, 97, 97, 97, 98, 98, 98, 99, 99]]) ∧
      New [[97, 97, 97, 97, 98, 98, 98, 99, 99]] [(98, 3), (99, 2), (97, 4)] =
        some (some ⟨[], HNode.mk 42 9 (HNode.mk 97 4 HNode.nil HNode.nil)
          (HNode.mk 42 5 (HNode.mk 99 2 HNode.nil HNode.nil)
            (HNode.mk 98 3 HNode.nil HNode.nil))⟩) :=
  ⟨by decide, (merges_of_aaaabbbcc [(98, 3), (99, 2), (97, 4)] (by decide)).2.2.2⟩

/-- C13, the claim fails: the corpus of 65536 times the character 'a' is not
empty and holds single-byte characters only, none of them a line terminator,
but it does not fit the buffer of the scanner, which yields no line; the
frequency map stays empty and `New` returns nil, so there is no tree. -/
theorem no_tree_for_corpus_of_65536_bytes :
    List.replicate 65536 97 ≠ [] ∧
      (∀ c ∈ List.replicate 65536 97, c < 128 ∧ c ≠ 10 ∧ c ≠ 13) ∧
      scan (List.replicate 65536 97) = [] ∧
      ([] : List (Nat × Nat)).Perm (countLines (scan (List.replicate 65536 97))) ∧
      New (scan (List.replicate 65536 97)) [] = some none := by
  have hmem : ∀ b ∈ List.replicate 65536 97, b = 97 :=
    fun b hb => List.eq_of_mem_replicate hb
  have hscan : scan (List.replicate 65536 97) = [] :=
    scan_long _ (fun b hb => by rw [hmem b hb]; decide)
      (by rw [List.length_replicate])
  refine ⟨?_, ?_, hscan, ?_, ?_⟩
  · intro h
    have h2 := congrArg List.length h
    rw [List.length_replicate] at h2
    exact absurd h2 (by decide)
  · intro c hc
    rw [hmem c hc]; decide
  · rw [hscan]; exact List.Perm.refl _
  · rw [hscan]; rfl

/-- C13 as amended: for every non-empty corpus of fewer than 65536 single-byte
characters without line terminators (which the scanner yields as one line),
`New` returns a tree whose leaves correspond one-to-one to the distinct bytes
of the corpus: every byte that occurs has exactly one leaf, whose frequency is
the number of occurrences of the byte, which is at least 1, and every leaf
holds a byte that occurs, with that frequency. -/
theorem leaves_mirror_frequency_table (corpus : List Nat) (order : List (Nat × Nat))
    (hne : corpus ≠ []) (hlen : corpus.length < 65536) (hbyte : ∀ c ∈ corpus, c < 128)
    (hline : ∀ c ∈ corpus, c ≠ 10 ∧ c ≠ 13)
    (hperm : order.Perm (countLines (scan corpus))) :
    ∃ h, New (scan corpus) order = some (some h) ∧
      (∀ v ∈ corpus, ((leaves h.root).map Prod.fst).count v = 1 ∧
        (v, corpus.count v) ∈ leaves h.root ∧ 1 ≤ corpus.count v) ∧
      (∀ v f, (v, f) ∈ leaves h.root → v ∈ corpus ∧ f = corpus.count v) := by
  have hscan : scan corpus = [corpus] :=
    scan_short corpus hne hbyte (fun b hb => (hline b hb).1)
      (fun h => (hline 13 h).2 rfl) hlen
  rw [hscan] at hperm ⊢
  exact leaves_of_one_line corpus order hne hbyte hperm

/-- Witness of C13 as amended: the corpus "aaaabbbcc". -/
theorem leaves_mirror_frequency_table_witness :
    [97, 97, 97, 97, 98, 98, 98, 99, 99] ≠ [] ∧
      [97, 97, 97, 97, 98, 98, 98, 99, 99].length < 65536 ∧
      (∀ c ∈ [97, 97, 97, 97, 98, 98, 98, 99, 99], c < 128) ∧
      (∀ c ∈ [97, 97, 97, 97, 98, 98, 98, 99, 99], c ≠ 10 ∧ c ≠ 13) ∧
      [(97, 4), (98, 3), (99, 2)].Perm
        (countLines (scan [97, 97, 97, 97, 98, 98, 98, 99, 99])) ∧
      ∃ h, New (scan [97, 97, 97, 97, 98, 98, 98, 99, 99]) [(97, 4), (98, 3), (99, 2)] =
          some (some h) ∧
        (∀ v ∈ [97, 97, 97, 97, 98, 98, 98, 99, 99],
          ((leaves h.root).map Prod.fst).count v = 1 ∧
          (v, [97, 97, 97, 97, 98, 98, 98, 99, 99].count v) ∈ leaves h.root ∧
          1 ≤ [97, 97, 97, 97, 98, 98, 98, 99, 99].count v) ∧
        (∀ v f, (v, f) ∈ leaves h.root →
          v ∈ [97, 97, 97, 97, 98, 98, 98, 99, 99] ∧
          f = [97, 97, 97, 97, 98, 98, 98, 99, 99].count v) :=
  ⟨by decide, by decide, by decide, by decide, by decide,
    leaves_mirror_frequency_table [97, 97, 97, 97, 98, 98, 98, 99, 99]
      [(97, 4), (98, 3), (99, 2)] (by decide) (by decide) (by decide) (by decide)
      (by decide)⟩

/-- C14: in every tree built by `New`, each node is a leaf with no children or
an internal node with two non-nil children whose frequency is the sum of the
frequencies of its children, and the frequency of the root is the number of
counted symbols. -/
theorem New_tree_wellFormed (lines : List (List Nat)) (order : List (Nat × Nat)) (h : HTree)
    (hperm : order.Perm (countLines lines)) (hnew : New lines order = some (some h)) :
    h.root.wellFormed = true ∧ h.root.frequency = some (runes lines).length := by
  obtain ⟨init, _, _, _, _, hwf, hl⟩ := New_struct_of_eq lines order h hperm hnew
  refine ⟨hwf, ?_⟩
  have hsum : h.root.freq = (runes lines).length := by
    rw [freq_eq_sum_leaves _ hwf, ← sum_countLines lines]
    exact (hl.map Prod.snd).sum_eq
  cases hroot : h.root with
  | nil => rw [hroot] at hwf; simp [HNode.wellFormed] at hwf
  | mk v f l r =>
    rw [hroot] at hsum
    simpa [HNode.freq, HNode.frequency] using hsum

/-- Witness of C14: the corpus "aaaabbbcc". -/
theorem New_tree_wellFormed_witness :
    [(97, 4), (98, 3), (99, 2)].Perm (countLines [[97, 97, 97, 97, 98, 98, 98, 99, 99]]) ∧
      (HNode.mk 42 9 (HNode.mk 97 4 HNode.nil HNode.nil)
          (HNode.mk 42 5 (HNode.mk 99 2 HNode.nil HNode.nil)
            (HNode.mk 98 3 HNode.nil HNode.nil))).wellFormed = true ∧
      (HNode.mk 42 9 (HNode.mk 97 4 HNode.nil HNode.nil)
          (HNode.mk 42 5 (HNode.mk 99 2 HNode.nil HNode.nil)
            (HNode.mk 98 3 HNode.nil HNode.nil))).frequency =
        some (runes [[97, 97, 97, 97, 98, 98, 98, 99, 99]]).length :=
  ⟨by decide,
    New_tree_wellFormed [[97, 97, 97, 97, 98, 98, 98, 99, 99]] [(97, 4), (98, 3), (99, 2)]
      ⟨[], HNode.mk 42 9 (HNode.mk 97 4 HNode.nil HNode.nil)
        (HNode.mk 42 5 (HNode.mk 99 2 HNode.nil HNode.nil)
          (HNode.mk 98 3 HNode.nil HNode.nil))⟩ (by decide) rfl⟩

/-- C15: at every iteration of the merge loop of `generateHuffmanTree` (every
working set with more than one node reached from the sorted initial node list),
the two merged nodes `nodes[0]` and `nodes[1]` have the two smallest
frequencies: every other node of the working set has a frequency at least
theirs, and the node that becomes the left child has a frequency at most that
of the node that becomes the right child. -/
theorem merge_takes_two_smallest (lines : List (List Nat)) (order : List (Nat × Nat))
    (init nodes : List HNode) (_hperm : order.Perm (countLines lines))
    (hinit : sort (leafNodes order) 0 (((leafNodes order).length : Int) - 1) = some init)
    (hreach : Reach init nodes) (hlen : nodes.length > 1) :
    ∃ n0 n1 rest nodes1, nodes = n0 :: n1 :: rest ∧ n0.freq ≤ n1.freq ∧
      (∀ x ∈ rest, n0.freq ≤ x.freq ∧ n1.freq ≤ x.freq) ∧
      mergeStep nodes = some nodes1 ∧
      nodes1.Perm (HNode.mk 42 (n0.freq + n1.freq) n0 n1 :: rest) := by
  obtain ⟨init1, hs, hp, hsorted⟩ :=
    sort_sorted_of_bounds (leafNodes order) (noNil_of_full (full_leafNodes order))
  rw [hs] at hinit
  have he : init = init1 := (Option.some.inj hinit).symm
  subst he
  have hwf : ∀ x ∈ init, x.wellFormed = true :=
    fun x hx => wellFormed_leafNodes order x (hp.subset hx)
  have hne : init ≠ [] := by
    intro h; subst h
    have h2 := reach_nil nodes hreach
    subst h2; simp at hlen
  obtain ⟨hw, _, _, hsn⟩ := reach_inv init hwf hne hsorted nodes hreach
  match nodes, hlen, hw, hsn with
  | [], hlen, _, _ => simp at hlen
  | [_], hlen, _, _ => simp at hlen
  | n0 :: n1 :: rest, _, hw, hsn =>
    obtain ⟨nodes1, hstep, hperm1, _⟩ := mergeStep_spec n0 n1 rest (noNil_of_wellFormed hw)
    unfold SortedByFreq at hsn
    simp only [List.pairwise_cons, List.mem_cons, forall_eq_or_imp] at hsn
    exact ⟨n0, n1, rest, nodes1, rfl, hsn.1.1, fun x hx => ⟨hsn.1.2 x hx, hsn.2.1 x hx⟩,
      hstep, hperm1⟩

/-- Witness of C15: the corpus "aaaabbbcc", at the first iteration of the loop. -/
theorem merge_takes_two_smallest_witness :
    [(97, 4), (98, 3), (99, 2)].Perm (countLines [[97, 97, 97, 97, 98, 98, 98, 99, 99]]) ∧
      ∃ n0 n1 rest nodes1,
        [HNode.mk 99 2 HNode.nil HNode.nil, HNode.mk 98 3 HNode.nil HNode.nil,
          HNode.mk 97 4 HNode.nil HNode.nil] = n0 :: n1 :: rest ∧ n0.freq ≤ n1.freq ∧
        (∀ x ∈ rest, n0.freq ≤ x.freq ∧ n1.freq ≤ x.freq) ∧
        mergeStep [HNode.mk 99 2 HNode.nil HNode.nil, HNode.mk 98 3 HNode.nil HNode.nil,
          HNode.mk 97 4 HNode.nil HNode.nil] = some nodes1 ∧
        nodes1.Perm (HNode.mk 42 (n0.freq + n1.freq) n0 n1 :: rest) :=
  ⟨by decide,
    merge_takes_two_smallest [[97, 97, 97, 97, 98, 98, 98, 99, 99]]
      [(97, 4), (98, 3), (99, 2)] _ _ (by decide) rfl Reach.start (by decide)⟩

/-- C16: for every list of nodes, the call `sort(nodes, 0, len(nodes)-1)`
returns, and the list afterwards is a permutation of the list before, in
non-decreasing order of frequency. -/
theorem sort_sorts (nodes : List HNode) (hnn : NoNil nodes) :
    ∃ nodes1, sort nodes 0 ((nodes.length : Int) - 1) = some nodes1 ∧ nodes1.Perm nodes ∧
      SortedByFreq nodes1 :=
  sort_sorted_of_bounds nodes hnn

/-- Witness of C16: the list of frequencies 5, 3, 5, 1. -/
theorem sort_sorts_witness :
    NoNil [HNode.mk 1 5 HNode.nil HNode.nil, HNode.mk 2 3 HNode.nil HNode.nil,
        HNode.mk 3 5 HNode.nil HNode.nil, HNode.mk 4 1 HNode.nil HNode.nil] ∧
      ∃ nodes1,
        sort [HNode.mk 1 5 HNode.nil HNode.nil, HNode.mk 2 3 HNode.nil HNode.nil,
          HNode.mk 3 5 HNode.nil HNode.nil, HNode.mk 4 1 HNode.nil HNode.nil] 0
          (([HNode.mk 1 5 HNode.nil HNode.nil, HNode.mk 2 3 HNode.nil HNode.nil,
            HNode.mk 3 5 HNode.nil HNode.nil, HNode.mk 4 1 HNode.nil HNode.nil].length : Int)
            - 1) = some nodes1 ∧
        nodes1.Perm [HNode.mk 1 5 HNode.nil HNode.nil, HNode.mk 2 3 HNode.nil HNode.nil,
          HNode.mk 3 5 HNode.nil HNode.nil, HNode.mk 4 1 HNode.nil HNode.nil] ∧
        SortedByFreq nodes1 :=
  ⟨by unfold NoNil; decide, sort_sorts _ (by unfold NoNil; decide)⟩

/-- C17, the claim fails: in the list a(1), b(1) the two nodes have the same
frequency and a stands before b; `sort` returns b(1), a(1). -/
theorem sort_swaps_equal_frequencies :
    sort [HNode.mk 97 1 HNode.nil HNode.nil, HNode.mk 98 1 HNode.nil HNode.nil] 0 1 =
      some [HNode.mk 98 1 HNode.nil HNode.nil, HNode.mk 97 1 HNode.nil HNode.nil] :=
  rfl

/-- C17 as amended: for every list of nodes, `sort(nodes, 0, len(nodes)-1)`
orders the nodes by frequency alone: a node of smaller frequency stands before
every node of larger frequency in the result, wherever the two stood before. -/
theorem sort_orders_by_frequency_only (nodes : List HNode) (x y : HNode) (hnn : NoNil nodes)
    (hx : x ∈ nodes) (hy : y ∈ nodes) (hlt : x.freq < y.freq) :
    ∃ nodes1, sort nodes 0 ((nodes.length : Int) - 1) = some nodes1 ∧
      List.Sublist [x, y] nodes1 := by
  obtain ⟨nodes1, hs, hperm, hsorted⟩ := sort_sorted_of_bounds nodes hnn
  refine ⟨nodes1, hs, ?_⟩
  have hne : x ≠ y := by intro h; subst h; omega
  rcases sublist_pair_of_mem x y hne nodes1 (hperm.symm.subset hx) (hperm.symm.subset hy)
    with h | h
  · exact h
  · have hp := List.Pairwise.sublist h hsorted
    simp at hp
    omega

/-- Witness of C17 as amended: the list b(3), a(1). -/
theorem sort_orders_by_frequency_only_witness :
    NoNil [HNode.mk 98 3 HNode.nil HNode.nil, HNode.mk 97 1 HNode.nil HNode.nil] ∧
      (HNode.mk 97 1 HNode.nil HNode.nil).freq < (HNode.mk 98 3 HNode.nil HNode.nil).freq ∧
      ∃ nodes1,
        sort [HNode.mk 98 3 HNode.nil HNode.nil, HNode.mk 97 1 HNode.nil HNode.nil] 0
          (([HNode.mk 98 3 HNode.nil HNode.nil, HNode.mk 97 1 HNode.nil HNode.nil].length : Int)
            - 1) = some nodes1 ∧
        List.Sublist [HNode.mk 97 1 HNode.nil HNode.nil, HNode.mk 98 3 HNode.nil HNode.nil]
          nodes1 :=
  ⟨by unfold NoNil; decide, by decide,
    sort_orders_by_frequency_only _ _ _ (by unfold NoNil; decide) (by decide) (by decide)
      (by decide)⟩

/-- C18: for every list of nodes and every call `sort(nodes, start, end)` with
`0 <= start <= end < len(nodes)`, the recursion terminates and the call returns
(none of its slice accesses is out of range); and `partition(nodes, start, end)`
with `start < end` needs only the entries at the positions `start..end` (the
entries outside may even be nil pointers, whose frequency cannot be read),
leaves every entry outside `start..end` as it was, returns `p` with
`start < p <= end`, and returns the same `p` and the same entries at
`start..end` on every slice that has the same entries at `start..end`. -/
theorem sort_terminates_partition_in_bounds (nodes : List HNode) (start stop : Int)
    (h0 : 0 ≤ start) (hle : start ≤ stop) (hlen : stop < nodes.length) :
    (NoNil nodes → ∃ nodes1, sort nodes start stop = some nodes1 ∧ nodes1.Perm nodes) ∧
      (start < stop → Win nodes start stop →
        ∃ nodes1 p, partition nodes start stop = some (nodes1, p) ∧ start < p ∧ p ≤ stop ∧
          (∀ k, (k < start ∨ stop < k) → index nodes1 k = index nodes k) ∧
          ∀ other : List HNode, other.length = nodes.length →
            (∀ k, start ≤ k → k ≤ stop → index other k = index nodes k) →
            ∃ other1, partition other start stop = some (other1, p) ∧
              (∀ k, start ≤ k → k ≤ stop → index other1 k = index nodes1 k) ∧
              (∀ k, (k < start ∨ stop < k) → index other1 k = index other k)) := by
  constructor
  · intro hnn
    exact sort_spec nodes start stop hnn h0 hlen
  · intro hlt hwin
    have _h := hle
    obtain ⟨nodes1, p, _, hpart, _, hp1, hp2, hframe, _, _⟩ :=
      partition_post nodes start stop h0 hlt hlen hwin
    refine ⟨nodes1, p, hpart, hp1, hp2, hframe.2.1, ?_⟩
    intro other hlo hag
    obtain ⟨A1, B1, q, hA, hB, hag1, hout1⟩ :=
      partition_local nodes other start stop h0 hlt hlen hlo hwin hag
    rw [hpart] at hA
    have h1 : nodes1 = A1 := congrArg Prod.fst (Option.some.inj hA)
    have h2 : p = q := congrArg Prod.snd (Option.some.inj hA)
    subst h1; subst h2
    exact ⟨B1, hB, hag1, hout1⟩

/-- Witness of C18: the slice nil, a(3), b(1), nil with `start = 1` and `end = 2`. -/
theorem sort_terminates_partition_in_bounds_witness :
    (0 : Int) ≤ 1 ∧ (1 : Int) ≤ 2 ∧
      (2 : Int) < ([HNode.nil, HNode.mk 97 3 HNode.nil HNode.nil,
        HNode.mk 98 1 HNode.nil HNode.nil, HNode.nil].length : Int) ∧
      ∃ nodes1 p,
        partition [HNode.nil, HNode.mk 97 3 HNode.nil HNode.nil,
          HNode.mk 98 1 HNode.nil HNode.nil, HNode.nil] 1 2 = some (nodes1, p) ∧
        1 < p ∧ p ≤ 2 ∧
        ∀ k, (k < 1 ∨ 2 < k) →
          index nodes1 k = index [HNode.nil, HNode.mk 97 3 HNode.nil HNode.nil,
            HNode.mk 98 1 HNode.nil HNode.nil, HNode.nil] k := by
  refine ⟨by decide, by decide, by decide, ?_⟩
  obtain ⟨nodes1, p, hpart, hp1, hp2, hout, _⟩ :=
    (sort_terminates_partition_in_bounds
      [HNode.nil, HNode.mk 97 3 HNode.nil HNode.nil, HNode.mk 98 1 HNode.nil HNode.nil,
        HNode.nil] 1 2 (by decide) (by decide) (by decide)).2
      (by decide)
      (by
        intro k h1 h2
        have hk : k = 1 ∨ k = 2 := by omega
        rcases hk with hk | hk
        · subst hk; exact ⟨3, rfl⟩
        · subst hk; exact ⟨1, rfl⟩)
  exact ⟨nodes1, p, hpart, hp1, hp2, hout⟩

/-- C20: for every tree built from a corpus with at least two distinct symbols,
`encode` from the root returns "01" for every byte other than '*' (42),
whether the byte occurs in the corpus or not, and the empty string for '*';
hence the encoder turns an input without '*' into "01" repeated once per input
character, and `Encode`, whose text has 26 characters, writes "01" 26 times. -/
theorem encode_is_tree_independent (lines : List (List Nat)) (order : List (Nat × Nat))
    (h : HTree) (a b : Nat) (hperm : order.Perm (countLines lines)) (ha : a ∈ runes lines)
    (hb : b ∈ runes lines) (hab : a % 256 ≠ b % 256)
    (hnew : New lines order = some (some h)) :
    (∀ m, m ≠ 42 → HNode.encode h.root m [] = [48, 49]) ∧
      HNode.encode h.root 42 [] = [] ∧
      (∀ input : List (List Nat), (∀ c ∈ runes input, c % 256 ≠ 42) →
        encodeLines h.root input = (List.replicate (runes input).length [48, 49]).flatten) ∧
      h.Encode = Except.ok (List.replicate 26 [48, 49]).flatten := by
  obtain ⟨f, l, r, hroot, hl, hr⟩ := New_two lines order h hperm a b ha hb hab hnew
  have htext := encodeLines_internal f l r hl hr text (by decide)
  refine ⟨?_, ?_, ?_, ?_⟩
  · intro m hm
    rw [hroot, encode_internal f l r hl hr]; simp [hm]
  · rw [hroot, encode_internal f l r hl hr]; simp
  · intro input hin
    rw [hroot]; exact encodeLines_internal f l r hl hr input hin
  · have hlen : (runes text).length = 26 := by decide
    rw [hlen] at htext
    simp only [HTree.Encode, HTree.EncodeText, hroot]
    rw [htext]
    simp

/-- Witness of C20: the tree built from "ab", the byte 'c' and the input "cab". -/
theorem encode_is_tree_independent_witness :
    [(97, 1), (98, 1)].Perm (countLines [[97, 98]]) ∧
      HNode.encode (HNode.mk 42 2 (HNode.mk 98 1 HNode.nil HNode.nil)
          (HNode.mk 97 1 HNode.nil HNode.nil)) 99 [] = [48, 49] ∧
      encodeLines (HNode.mk 42 2 (HNode.mk 98 1 HNode.nil HNode.nil)
          (HNode.mk 97 1 HNode.nil HNode.nil)) [[99, 97, 98]] =
        (List.replicate (runes [[99, 97, 98]]).length [48, 49]).flatten :=
  ⟨by decide,
    (encode_is_tree_independent [[97, 98]] [(97, 1), (98, 1)]
      ⟨[], HNode.mk 42 2 (HNode.mk 98 1 HNode.nil HNode.nil)
        (HNode.mk 97 1 HNode.nil HNode.nil)⟩ 97 98 (by decide) (by decide) (by decide)
      (by decide) rfl).1 99 (by decide),
    (encode_is_tree_independent [[97, 98]] [(97, 1), (98, 1)]
      ⟨[], HNode.mk 42 2 (HNode.mk 98 1 HNode.nil HNode.nil)
        (HNode.mk 97 1 HNode.nil HNode.nil)⟩ 97 98 (by decide) (by decide) (by decide)
      (by decide) rfl).2.2.1 [[99, 97, 98]] (by decide)⟩

/-- C19: for every non-empty corpus, `New` returns a tree whose weighted path
length (the sum over its leaves of frequency times depth) is at most that of
every binary tree in which every internal node has two children and whose
leaves carry the same symbols with the same frequencies. -/
theorem built_tree_has_minimum_weighted_path_length (lines : List (List Nat))
    (order : List (Nat × Nat)) (hne : runes lines ≠ [])
    (hperm : order.Perm (countLines lines)) :
    ∃ h, New lines order = some (some h) ∧
      ∀ T : HNode, T.full = true → (leaves T).Perm (leaves h.root) →
        wpl h.root ≤ wpl T :=
  New_optimal lines order hne hperm

/-- Witness of C19: the corpus "aaaabbbcc". -/
theorem built_tree_has_minimum_weighted_path_length_witness :
    runes [[97, 97, 97, 97, 98, 98, 98, 99, 99]] ≠ [] ∧
      [(97, 4), (98, 3), (99, 2)].Perm (countLines [[97, 97, 97, 97, 98, 98, 98, 99, 99]]) ∧
      ∃ h, New [[97, 97, 97, 97, 98, 98, 98, 99, 99]] [(97, 4), (98, 3), (99, 2)] =
          some (some h) ∧
        ∀ T : HNode, T.full = true → (leaves T).Perm (leaves h.root) →
          wpl h.root ≤ wpl T :=
  ⟨by decide, by decide,
    built_tree_has_minimum_weighted_path_length [[97, 97, 97, 97, 98, 98, 98, 99, 99]]
      [(97, 4), (98, 3), (99, 2)] (by decide) (by decide)⟩

end Huffman
